import Mathlib

/-!
Verification of the AOP network visualizer's hypergraph builder, community-detection
dispatch and path finder, shallowly embedded from `backend/src/hypergraph_utils.py`
and `backend/src/main.py`.  Python dicts become structures with `Option` fields for
keys that may be absent (`d.get(k)` is `Option.getD` / a `match`), Python strings are
`String` (keys built by `+` concatenation are modelled on `List Char`, the character
sequence of the string), Python lists are `List`, loops that mutate an accumulator are
folds, and the two BFS-style `while` loops are fuel-indexed recursions (the fuel for
`find_shortest_path` is fixed to a provably sufficient bound; `find_k_shortest_paths`
takes the fuel as an explicit argument and every proved property holds for all fuels).
-/

namespace AopViz

/-- A node record as consumed by the backend: `id` is mandatory (the Python code
indexes `node['id']` directly); every other consulted key may be absent, which the
code reads with `dict.get` and a default. -/
structure PyNode where
  id : String
  type : Option String := none
  aop_id : Option String := none
  aop : Option String := none
  aop_name : Option String := none
  label : Option String := none
  name : Option String := none
  deriving DecidableEq, Repr

/-- An edge record: every consulted key may be absent (`edge.get(...)`).  A missing
key and an empty string are both falsy in the Python truthiness tests, so `none` and
`some ""` behave identically wherever the code tests `if source and target`. -/
structure PyEdge where
  source : Option String := none
  target : Option String := none
  type : Option String := none
  relationship : Option String := none
  aop : Option String := none
  confidence : Option String := none
  adjacency : Option String := none
  deriving DecidableEq, Repr

/-- A synthesized hypernode (`type-hypernode` or `stressor-hypernode`).  The Python
code builds heterogeneous dicts; keys that one kind sets and the other omits default
to `""` / `none` / `[]`, matching the `h.get(key, default)` reads performed on them. -/
structure Hypernode where
  id : String
  label : String := ""
  description : String := ""
  type : String := ""
  original_type : String := ""
  aop : String := ""
  aop_id : Option String := none
  aop_name : String := ""
  member_count : Nat := 0
  members : List String := []
  stressor_names : List String := []
  deriving DecidableEq, Repr

/-- A synthesized connection (hyperedge).  All fields are set explicitly by the code
paths that create connections; kinds that omit a field default it like `dict.get`. -/
structure Conn where
  id : String
  source : String
  target : String
  type : String
  weight : Rat := 1
  label : String := ""
  aop : String := ""
  aop_name : String := ""
  description : String := ""
  deriving DecidableEq, Repr

/-! ### Deduplication (`create_hypergraph_elements`, input dedup and final dedup)

Both dedup passes key a Python `set` on the formatted string
`f"{source}->{target}:{edge_type}"`; we model the key as the string's character list
and the pass as a fold that keeps an element iff its key was not seen before. -/

/-- The dedup key of the input-edge pass: `f"{source}->{target}:{type}"` with each
field read as `edge.get(field, '')`. -/
def edgeKey (e : PyEdge) : List Char :=
  (e.source.getD "").data ++ "->".data ++ (e.target.getD "").data ++ ":".data
    ++ (e.type.getD "").data

/-- The dedup key of the final connection pass: `f"{source}->{target}:{conn_type}"`. -/
def connKey (c : Conn) : List Char :=
  c.source.data ++ "->".data ++ c.target.data ++ ":".data ++ c.type.data

/-- One dedup pass: scan the list, keep an element iff its key is not in the `seen`
set, and add the kept key to `seen` (mirrors the `seen_edges` / `seen_connections`
loops). -/
def dedupByAux (key : α → List Char) (seen : List (List Char)) : List α → List α
  | [] => []
  | e :: es =>
    if key e ∈ seen then dedupByAux key seen es
    else e :: dedupByAux key (key e :: seen) es

/-- Deduplicate a list by a key function, keeping the first occurrence of each key. -/
def dedupBy (key : α → List Char) (l : List α) : List α := dedupByAux key [] l

theorem dedupByAux_sublist (key : α → List Char) (seen : List (List Char)) :
    ∀ l : List α, (dedupByAux key seen l).Sublist l := by
  intro l
  induction l generalizing seen with
  | nil => simp [dedupByAux]
  | cons e es ih =>
    simp only [dedupByAux]
    split
    · exact (ih seen).cons e
    · exact (ih (key e :: seen)).cons₂ e

theorem dedupBy_sublist (key : α → List Char) (l : List α) :
    (dedupBy key l).Sublist l := dedupByAux_sublist key [] l

theorem dedupByAux_key_not_seen (key : α → List Char) (seen : List (List Char))
    (l : List α) : ∀ x ∈ dedupByAux key seen l, key x ∉ seen := by
  induction l generalizing seen with
  | nil => simp [dedupByAux]
  | cons e es ih =>
    simp only [dedupByAux]
    split
    · exact ih seen
    · rename_i hns
      intro x hx
      rcases List.mem_cons.mp hx with hx | hx
      · simpa [hx] using hns
      · have := ih (key e :: seen) x hx
        intro hc
        exact this (List.mem_cons_of_mem _ hc)

theorem dedupByAux_keys_nodup (key : α → List Char) (seen : List (List Char))
    (l : List α) : ((dedupByAux key seen l).map key).Nodup := by
  induction l generalizing seen with
  | nil => simp [dedupByAux]
  | cons e es ih =>
    simp only [dedupByAux]
    split
    · exact ih seen
    · refine List.nodup_cons.mpr ⟨?_, ih (key e :: seen)⟩
      intro hmem
      rcases List.mem_map.mp hmem with ⟨x, hx, hkx⟩
      have := dedupByAux_key_not_seen key (key e :: seen) es x hx
      exact this (by simp [hkx])

/-- Keys in the output of a dedup pass are pairwise distinct. -/
theorem dedupBy_keys_nodup (key : α → List Char) (l : List α) :
    ((dedupBy key l).map key).Nodup := dedupByAux_keys_nodup key [] l

theorem dedupBy_pairwise_key_ne (key : α → List Char) (l : List α) :
    (dedupBy key l).Pairwise (fun a b => key a ≠ key b) := by
  have h := dedupBy_keys_nodup key l
  exact List.pairwise_map.mp h

theorem dedupByAux_find? (key : α → List Char) (seen : List (List Char)) (l : List α)
    (k : List Char) (hk : k ∉ seen) :
    (dedupByAux key seen l).find? (fun x => key x == k)
      = l.find? (fun x => key x == k) := by
  induction l generalizing seen with
  | nil => simp [dedupByAux]
  | cons e es ih =>
    simp only [dedupByAux]
    by_cases he : key e = k
    · have hes : ¬ key e ∈ seen := he ▸ hk
      simp only [if_neg hes]
      simp [List.find?, he]
    · have hfind : (e :: es).find? (fun x => key x == k)
          = es.find? (fun x => key x == k) := by
        simp [List.find?, show (key e == k) = false from beq_false_of_ne he]
      rw [hfind]
      split
      · exact ih seen hk
      · have : (dedupByAux key (key e :: seen) es).find? (fun x => key x == k)
            = es.find? (fun x => key x == k) := by
          apply ih
          intro hc
          rcases List.mem_cons.mp hc with hc | hc
          · exact he hc.symm
          · exact hk hc
        simpa [List.find?, show (key e == k) = false from beq_false_of_ne he]
          using this

/-- The unique survivor of each key is the first element of the input bearing it:
searching the output for a key finds exactly what searching the input finds. -/
theorem dedupBy_find? (key : α → List Char) (l : List α) (k : List Char) :
    (dedupBy key l).find? (fun x => key x == k) = l.find? (fun x => key x == k) :=
  dedupByAux_find? key [] l k (by simp)

theorem dedupByAux_mem_of_first (key : α → List Char) (seen : List (List Char)) :
    ∀ (l₁ : List α) (e : α) (l₂ : List α),
      (∀ x ∈ l₁, key x ≠ key e) → key e ∉ seen →
      e ∈ dedupByAux key seen (l₁ ++ e :: l₂) := by
  intro l₁
  induction l₁ generalizing seen with
  | nil =>
    intro e l₂ _ hs
    simp [dedupByAux, if_neg hs]
  | cons a l₁ ih =>
    intro e l₂ hne hs
    have hae : key a ≠ key e := hne a (by simp)
    simp only [List.cons_append, dedupByAux]
    split
    · exact ih seen e l₂ (fun x hx => hne x (by simp [hx])) hs
    · refine List.mem_cons_of_mem a
        (ih (key a :: seen) e l₂ (fun x hx => hne x (by simp [hx])) ?_)
      intro hc
      rcases List.mem_cons.mp hc with hc | hc
      · exact hae hc.symm
      · exact hs hc

/-- An element whose key does not occur earlier in the list survives the dedup. -/
theorem dedupBy_mem_of_first (key : α → List Char) (l₁ : List α) (e : α)
    (l₂ : List α) (hne : ∀ x ∈ l₁, key x ≠ key e) :
    e ∈ dedupBy key (l₁ ++ e :: l₂) :=
  dedupByAux_mem_of_first key [] l₁ e l₂ hne (by simp)

/-! ### Identifier normalization and grouping -/

/-- Python's `str.split(sep)` for a one-character separator, on character lists:
always returns at least one (possibly empty) part. -/
def splitOnChar (sep : Char) (l : List Char) : List (List Char) :=
  match l with
  | [] => [[]]
  | c :: rest =>
    let r := splitOnChar sep rest
    if c = sep then [] :: r
    else
      match r with
      | [] => [[c]]
      | h :: t => (c :: h) :: t

/-- `_extract_aop_id`: split on `':'`, take the last part, keep its digit characters
(`'Aop:315'`, `'AOP:315'` and `'315'` all yield `'315'`; a digit-free input yields
`''`).  The non-string branch of the Python helper is unreachable here because every
value fed to it is a string, and `parts` is never empty. -/
def extractAopId (val : String) : String :=
  String.mk (((splitOnChar ':' val.data).getLastD val.data).filter Char.isDigit)

/-- `stressor.get('aop_id') or stressor.get('aop') or ''`: the first truthy
(present and non-empty) of the two fields, else the empty string. -/
def aopRawOf (n : PyNode) : String :=
  let a := n.aop_id.getD ""
  if a ≠ "" then a else n.aop.getD ""

/-- `_extract_aop_id(aop_raw) or 'unknown'`. -/
def stressorKeyOf (n : PyNode) : String :=
  let e := extractAopId (aopRawOf n)
  if e = "" then "unknown" else e

/-- `defaultdict(list)` grouping: append `v` to the group of `k`, creating the group
at the end (dict insertion order) if absent. -/
def addToGroups (gs : List (String × List β)) (k : String) (v : β) :
    List (String × List β) :=
  match gs with
  | [] => [(k, [v])]
  | (k', vs) :: rest =>
    if k' = k then (k', vs ++ [v]) :: rest else (k', vs) :: addToGroups rest k v

/-- One step of the `group_nodes_by_type` loop: skip `Stressor` nodes, group every
other node's id under `node.get('type', 'Unknown')`. -/
def gStep (acc : List (String × List String)) (n : PyNode) :
    List (String × List String) :=
  let t := n.type.getD "Unknown"
  if t = "Stressor" then acc else addToGroups acc t n.id

/-- `group_nodes_by_type`: group the ids of all non-`Stressor` nodes by
`node.get('type', 'Unknown')`, in input order (the `min_group_size` parameter of the
Python function is unused and the per-type dict wraps the same member lists). -/
def groupNodesByType (nodes : List PyNode) : List (String × List String) :=
  nodes.foldl gStep []

/-- Successive slices `members[start:start+m]` for `start in range(0, total, m)`:
consecutive chunks of size at most `m`.  The `m = 0` branch is unreachable from the
builder, which clamps `m` to at least 1. -/
def chunkList (m : Nat) (l : List α) : List (List α) :=
  match l with
  | [] => []
  | a :: rest =>
    if _hm : m = 0 then [a :: rest]
    else (a :: rest).take m :: chunkList m ((a :: rest).drop m)
termination_by l.length
decreasing_by
  simp only [List.length_drop, List.length_cons]
  omega

/-! ### `create_hypergraph_elements` -/

/-- Deterministic id of the chunk hypernode of a type: the 1-based chunk index is
appended only when the type's members overflow one chunk. -/
def typeHnId (t : String) (total m idx : Nat) : String :=
  if total > m then "type-hypernode-" ++ t ++ "-" ++ toString idx
  else "type-hypernode-" ++ t

/-- The chunk hypernodes of one type group. -/
def typeHypernodesFor (m : Nat) (t : String) (ms : List String) : List Hypernode :=
  (chunkList m ms).enum.map fun p =>
    let idx := p.1 + 1
    let chunk := p.2
    { id := typeHnId t ms.length m idx
      label :=
        if ms.length > m then
          t ++ " Group " ++ toString idx ++ " (" ++ toString chunk.length ++ ")"
        else t ++ " Group (" ++ toString chunk.length ++ ")"
      type := "type-hypernode"
      original_type := t
      member_count := chunk.length
      members := chunk }

/-- The member-to-hypernode connections of one type group (weight 0.5). -/
def typeConnsFor (m : Nat) (t : String) (ms : List String) : List Conn :=
  (chunkList m ms).enum.flatMap fun p =>
    let hid := typeHnId t ms.length m (p.1 + 1)
    p.2.map fun memberId =>
      { id := memberId ++ "-" ++ hid
        source := memberId
        target := hid
        type := "hypernode-connection"
        weight := (1 : Rat) / 2 }

/-- Python's substring test `p in s`, on character lists: some tail of `l` starts
with `p`. -/
def containsSub (p l : List Char) : Bool :=
  l.tails.any fun t => p.isPrefixOf t

/-- `[n for n in nodes if n.get('type') == 'Stressor']`. -/
def stressorNodesOf (nodes : List PyNode) : List PyNode :=
  nodes.filter fun n => n.type == some "Stressor"

/-- One step of the stressor grouping loop: group the stressor under its
normalized AOP key, skipping it when the key normalizes to `'unknown'` (no digits
found). -/
def sStep (acc : List (String × List PyNode)) (s : PyNode) :
    List (String × List PyNode) :=
  let k := stressorKeyOf s
  if k ≠ "unknown" then addToGroups acc k s else acc

/-- Group stressors by normalized AOP key (`stressors_by_aop`). -/
def stressorGroupsOf (stressors : List PyNode) : List (String × List PyNode) :=
  stressors.foldl sStep []

/-- The human-readable AOP label of a stressor group, from its first member:
`"AOP {aop_id}: {aop_name}"` when a name is available, else `"AOP{key}"`. -/
def aopLabelOf (k : String) (ss : List PyNode) : String :=
  let aopName := match ss.head? with | some s0 => s0.aop_name.getD "" | none => ""
  let aopIdv : String :=
    match ss.head? with
    | some s0 => match s0.aop_id with | some v => v | none => k
    | none => k
  if aopName ≠ "" then "AOP " ++ aopIdv ++ ": " ++ aopName else "AOP" ++ k

/-- The `stressor-hypernode` of one AOP group. -/
def mkStressorHn (k : String) (ss : List PyNode) : Hypernode :=
  let aopName := match ss.head? with | some s0 => s0.aop_name.getD "" | none => ""
  let aopIdv : String :=
    match ss.head? with
    | some s0 => match s0.aop_id with | some v => v | none => k
    | none => k
  let preview0 := String.intercalate ", " ((ss.take 2).map fun s => s.label.getD "Unknown")
  let preview :=
    if ss.length > 2 then preview0 ++ " +" ++ toString (ss.length - 2) ++ " more"
    else preview0
  { id := "stressor-hypernode-aop-" ++ k
    label := "Stressors (" ++ aopLabelOf k ss ++ ")"
    description := toString ss.length ++ " stressors: " ++ preview
    type := "stressor-hypernode"
    aop := k
    aop_id := some aopIdv
    aop_name := aopName
    member_count := ss.length
    members := ss.map (·.id)
    stressor_names := ss.map fun s => s.label.getD (s.name.getD "Unknown") }

/-- The stressor-to-hypernode connections of one AOP group (weight 1.0). -/
def stressorGroupConnsFor (k : String) (ss : List PyNode) : List Conn :=
  let hid := "stressor-hypernode-aop-" ++ k
  let lbl := aopLabelOf k ss
  ss.map fun s =>
    { id := s.id ++ "-" ++ hid
      source := s.id
      target := hid
      type := "stressor-connection"
      weight := 1
      label := lbl
      aop := k }

/-- `{h.get('aop_id'): h for h in stressor_hypernodes}.get(k)`: a dict comprehension
keeps the last entry per key, so the lookup returns the last hypernode whose
`aop_id` equals `k`. -/
def mapGetStressorHn (shns : List Hypernode) (k : String) : Option Hypernode :=
  (shns.filter fun h => h.aop_id == some k).getLast?

/-- The "ensure every individual stressor node is connected to its AOP hypernode"
loop: for each stressor, look its normalized key up in the hypernode map and append
a `stressor-to-aop-hypernode` connection unless an equal `(source, target)` pair is
already present. -/
def ensStep (shns : List Hypernode) (cs : List Conn) (s : PyNode) : List Conn :=
  let k := stressorKeyOf s
  match mapGetStressorHn shns k with
  | none => cs
  | some h =>
    if cs.any (fun c => c.source == s.id && c.target == h.id) then cs
    else
      cs ++ [{ id := "stressor-" ++ s.id ++ "-to-aop-" ++ h.id
               source := s.id
               target := h.id
               type := "stressor-to-aop-hypernode"
               weight := 1
               label := "AOP" ++ k
               aop := k }]

def ensureLoop (stressors : List PyNode) (shns : List Hypernode)
    (conns : List Conn) : List Conn :=
  stressors.foldl (ensStep shns) conns

/-- The stressor-hypernode to first-AdverseOutcome-hypernode loop: append one
labeled `stressor-adverse-hyperedge` per stressor hypernode, to the first
AdverseOutcome type-hypernode, unless the `(source, target)` pair already exists;
skip entirely when no AdverseOutcome hypernode exists. -/
def advStep (aohns : List Hypernode) (cs : List Conn) (shn : Hypernode) :
    List Conn :=
  let aopKey := shn.aop
  let aopIdv := match shn.aop_id with | some v => v | none => aopKey
  let lbl := "AOP " ++ aopIdv
  match aohns.head? with
  | none => cs
  | some tgt =>
    if cs.any (fun c => c.source == shn.id && c.target == tgt.id) then cs
    else
      cs ++ [{ id := "stressor-to-adverse-" ++ shn.id ++ "-" ++ tgt.id
               source := shn.id
               target := tgt.id
               type := "stressor-adverse-hyperedge"
               weight := 1
               label := lbl
               aop := aopKey
               aop_name := shn.aop_name
               description :=
                 "Connection from stressors to adverse outcome via " ++ lbl }]

def adverseLoop (shns aohns : List Hypernode) (conns : List Conn) : List Conn :=
  shns.foldl (advStep aohns) conns

/-- The `stats` dict of the build (`original_edges` counts the deduplicated input
edges, which is what `edges` refers to at that point in the source). -/
structure HyperStats where
  original_nodes : Nat
  original_edges : Nat
  hypernodes : Nat
  hypernode_connections : Nat
  total_nodes : Nat
  total_edges : Nat
  stressor_nodes : Nat
  stressor_hypernodes : Nat
  deriving DecidableEq, Repr

/-- The value returned by `create_hypergraph_elements` (the `config` echo of the
call's arguments is omitted). -/
structure HypergraphResult where
  hypernodes : List Hypernode
  hypernode_connections : List Conn
  edges : List PyEdge
  stats : HyperStats
  deriving DecidableEq, Repr

/-- All type-chunk hypernodes, one run of chunks per type group in group order. -/
def typeHnsOf (nodes : List PyNode) (maxPer : Nat) : List Hypernode :=
  (groupNodesByType nodes).flatMap fun p => typeHypernodesFor maxPer p.1 p.2

/-- All member-to-type-hypernode connections, in the same order the loop appends
them. -/
def typeConnsOf (nodes : List PyNode) (maxPer : Nat) : List Conn :=
  (groupNodesByType nodes).flatMap fun p => typeConnsFor maxPer p.1 p.2

/-- The stressor groups actually built: empty when there is no stressor node or
stressor hypernodes are excluded (the guard of the stressor block). -/
def sGroupsOf (nodes : List PyNode) (excl : Bool) : List (String × List PyNode) :=
  let stressors := stressorNodesOf nodes
  if stressors.isEmpty || excl then [] else stressorGroupsOf stressors

/-- All stressor hypernodes (the `len(aop_stressors) > 0` guard mirrors the
source; group lists are in fact never empty). -/
def sHnsOf (nodes : List PyNode) (excl : Bool) : List Hypernode :=
  (sGroupsOf nodes excl).flatMap fun p =>
    if 0 < p.2.length then [mkStressorHn p.1 p.2] else []

/-- All `stressor-connection` edges of the stressor groups. -/
def sConnsOf (nodes : List PyNode) (excl : Bool) : List Conn :=
  (sGroupsOf nodes excl).flatMap fun p =>
    if 0 < p.2.length then stressorGroupConnsFor p.1 p.2 else []

/-- The full hypernode list returned by the build: type hypernodes then stressor
hypernodes, in creation order. -/
def allHypernodesOf (nodes : List PyNode) (maxPer : Nat) (excl : Bool) :
    List Hypernode :=
  typeHnsOf nodes maxPer ++ sHnsOf nodes excl

/-- The connection list just before the final dedup: type connections, stressor
group connections, then the ensure- and adverse-loop additions. -/
def preDedupConnsOf (nodes : List PyNode) (maxPer : Nat) (excl : Bool) : List Conn :=
  let hypernodesAll := allHypernodesOf nodes maxPer excl
  let stressorHns := hypernodesAll.filter fun h => h.type == "stressor-hypernode"
  let adverseHns := hypernodesAll.filter fun h =>
    h.type == "type-hypernode" && containsSub "AdverseOutcome".data h.original_type.data
  adverseLoop stressorHns adverseHns
    (ensureLoop (stressorNodesOf nodes) stressorHns
      (typeConnsOf nodes maxPer ++ sConnsOf nodes excl))

/-- `create_hypergraph_elements(nodes, edges, min_nodes, ..., exclude_stressor_hypernodes)`.
The `use_communities`, `use_type_groups` and `community_data` parameters do not
affect the computation (community-based hypernodes are disabled in the source and
type hypernodes are always built), so they are not modelled. -/
def createHypergraphElements (nodes : List PyNode) (edges : List PyEdge)
    (min_nodes : Nat) (exclude_stressor_hypernodes : Bool) : HypergraphResult :=
  let dedupedEdges := dedupBy edgeKey edges
  let maxPer := max 1 min_nodes
  let hypernodesAll := allHypernodesOf nodes maxPer exclude_stressor_hypernodes
  let finalConns :=
    dedupBy connKey (preDedupConnsOf nodes maxPer exclude_stressor_hypernodes)
  { hypernodes := hypernodesAll
    hypernode_connections := finalConns
    edges := dedupedEdges
    stats :=
      { original_nodes := nodes.length
        original_edges := dedupedEdges.length
        hypernodes := hypernodesAll.length
        hypernode_connections := finalConns.length
        total_nodes := nodes.length + hypernodesAll.length
        total_edges := dedupedEdges.length + finalConns.length
        stressor_nodes := (stressorNodesOf nodes).length
        stressor_hypernodes :=
          (hypernodesAll.filter fun h => h.type == "stressor-hypernode").length } }

/-! ### C1: deduplication of the returned edge collections -/

/-- The `(source, target, type)` triple of an input edge, each field read with
default `''` as the dedup loop does. -/
def edgeTriple (e : PyEdge) : String × String × String :=
  (e.source.getD "", e.target.getD "", e.type.getD "")

/-- The `(source, target, type)` triple of a synthesized connection. -/
def connTriple (c : Conn) : String × String × String := (c.source, c.target, c.type)

theorem edgeKey_eq_of_triple_eq {a b : PyEdge} (h : edgeTriple a = edgeTriple b) :
    edgeKey a = edgeKey b := by
  have h1 := congrArg (fun p : String × String × String => p.1) h
  have h2 := congrArg (fun p : String × String × String => p.2.1) h
  have h3 := congrArg (fun p : String × String × String => p.2.2) h
  simp only [edgeTriple] at h1 h2 h3
  simp only [edgeKey, h1, h2, h3]

theorem connKey_eq_of_triple_eq {a b : Conn} (h : connTriple a = connTriple b) :
    connKey a = connKey b := by
  have h1 := congrArg (fun p : String × String × String => p.1) h
  have h2 := congrArg (fun p : String × String × String => p.2.1) h
  have h3 := congrArg (fun p : String × String × String => p.2.2) h
  simp only [connTriple] at h1 h2 h3
  simp only [connKey, h1, h2, h3]

/-- C1 (amended): both returned edge collections are deduplicated by the formatted
string key `source ++ "->" ++ target ++ ":" ++ type`; keys are pairwise distinct in
each collection, so in particular no two returned edges share a `(source, target,
type)` triple (equal triples produce equal keys); the returned original edges are a
sublist of the input, and for every key the (unique) survivor is the first input
edge bearing that key.  The claim's "first occurrence of the *triple* is kept"
strengthening fails when distinct triples collide as formatted strings (ids
containing `"->"` or `":"`), see the counterexample. -/
theorem c1_edge_collections_deduplicated (nodes : List PyNode) (edges : List PyEdge)
    (min_nodes : Nat) (excl : Bool) :
    ((createHypergraphElements nodes edges min_nodes excl).edges.Pairwise
        fun a b => edgeTriple a ≠ edgeTriple b)
    ∧ ((createHypergraphElements nodes edges min_nodes excl).hypernode_connections.Pairwise
        fun a b => connTriple a ≠ connTriple b)
    ∧ ((createHypergraphElements nodes edges min_nodes excl).edges.map edgeKey).Nodup
    ∧ ((createHypergraphElements nodes edges min_nodes excl).hypernode_connections.map
        connKey).Nodup
    ∧ (createHypergraphElements nodes edges min_nodes excl).edges.Sublist edges
    ∧ (∀ k : List Char,
        (createHypergraphElements nodes edges min_nodes excl).edges.find?
            (fun e => edgeKey e == k)
          = edges.find? fun e => edgeKey e == k) := by
  refine ⟨?_, ?_, ?_, ?_, ?_, ?_⟩
  · exact (dedupBy_pairwise_key_ne edgeKey edges).imp
      fun h he => h (edgeKey_eq_of_triple_eq he)
  · exact (dedupBy_pairwise_key_ne connKey _).imp
      fun h he => h (connKey_eq_of_triple_eq he)
  · exact dedupBy_keys_nodup edgeKey edges
  · exact dedupBy_keys_nodup connKey _
  · exact dedupBy_sublist edgeKey edges
  · exact fun k => dedupBy_find? edgeKey edges k

/-- C1 counterexample: with ids containing `"->"`, two edges with *distinct*
triples collide on the formatted key, so a later pair of triple-duplicates loses
its first occurrence too: in `[e1, e2, e2]` the triple of `e2` occurs twice
(positions 1 and 2), yet the returned deduplicated edges are `[e1]` — no edge with
`e2`'s triple is kept, contradicting "the first occurrence is kept" for the
`(source, target, type)` key. -/
theorem c1_counterexample :
    (createHypergraphElements []
        [{ source := some "a->b", target := some "c", type := some "t" },
         { source := some "a", target := some "b->c", type := some "t" },
         { source := some "a", target := some "b->c", type := some "t" }] 4 false).edges
      = [{ source := some "a->b", target := some "c", type := some "t" }]
    ∧ edgeTriple { source := some "a", target := some "b->c", type := some "t" }
        ≠ edgeTriple { source := some "a->b", target := some "c", type := some "t" } := by
  constructor
  · rfl
  · decide

/-! ### C2: type-based chunking -/

theorem chunkList_nil (m : Nat) : chunkList m ([] : List α) = [] := by
  rw [chunkList]

theorem chunkList_cons (m : Nat) (hm : m ≠ 0) (a : α) (rest : List α) :
    chunkList m (a :: rest)
      = (a :: rest).take m :: chunkList m ((a :: rest).drop m) := by
  rw [chunkList]
  simp [hm]

theorem chunkList_flatten_aux (m : Nat) (hm : m ≠ 0) :
    ∀ (n : Nat) (l : List α), l.length ≤ n → (chunkList m l).flatten = l := by
  intro n
  induction n with
  | zero =>
    intro l hl
    have h0 : l = [] := List.length_eq_zero.mp (Nat.le_zero.mp hl)
    subst h0
    simp [chunkList_nil]
  | succ n ih =>
    intro l hl
    cases l with
    | nil => simp [chunkList_nil]
    | cons a rest =>
      rw [chunkList_cons m hm]
      simp only [List.flatten_cons]
      rw [ih]
      · exact List.take_append_drop m (a :: rest)
      · simp only [List.length_drop, List.length_cons]
        simp only [List.length_cons] at hl
        omega

/-- Concatenating the chunks of a list recovers the list. -/
theorem chunkList_flatten (m : Nat) (hm : m ≠ 0) (l : List α) :
    (chunkList m l).flatten = l :=
  chunkList_flatten_aux m hm l.length l le_rfl

theorem chunkList_chunk_length_le_aux (m : Nat) (hm : m ≠ 0) :
    ∀ (n : Nat) (l : List α), l.length ≤ n → ∀ c ∈ chunkList m l, c.length ≤ m := by
  intro n
  induction n with
  | zero =>
    intro l hl c hc
    have h0 : l = [] := List.length_eq_zero.mp (Nat.le_zero.mp hl)
    subst h0
    simp [chunkList_nil] at hc
  | succ n ih =>
    intro l hl c hc
    cases l with
    | nil => simp [chunkList_nil] at hc
    | cons a rest =>
      rw [chunkList_cons m hm] at hc
      rcases List.mem_cons.mp hc with hc | hc
      · subst hc
        simp only [List.length_take]
        omega
      · refine ih ((a :: rest).drop m) ?_ c hc
        simp only [List.length_drop, List.length_cons]
        simp only [List.length_cons] at hl
        omega

/-- Every chunk has at most `m` elements. -/
theorem chunkList_chunk_length_le (m : Nat) (hm : m ≠ 0) (l : List α) :
    ∀ c ∈ chunkList m l, c.length ≤ m :=
  chunkList_chunk_length_le_aux m hm l.length l le_rfl

theorem chunkList_length_aux (m : Nat) (hm : m ≠ 0) :
    ∀ (n : Nat) (l : List α), l.length ≤ n →
      (chunkList m l).length = (l.length + m - 1) / m := by
  intro n
  induction n with
  | zero =>
    intro l hl
    have h0 : l = [] := List.length_eq_zero.mp (Nat.le_zero.mp hl)
    subst h0
    simp only [chunkList_nil, List.length_nil, Nat.zero_add]
    rw [Nat.div_eq_of_lt (by omega)]
  | succ n ih =>
    intro l hl
    cases l with
    | nil =>
      simp only [chunkList_nil, List.length_nil, Nat.zero_add]
      rw [Nat.div_eq_of_lt (by omega)]
    | cons a rest =>
      rw [chunkList_cons m hm]
      simp only [List.length_cons]
      rw [ih ((a :: rest).drop m)
        (by simp only [List.length_drop, List.length_cons]; simp only [List.length_cons] at hl; omega)]
      simp only [List.length_drop, List.length_cons]
      have hr : rest.length + 1 + m - 1 = rest.length + m := by omega
      rw [hr, Nat.add_div_right rest.length (Nat.pos_of_ne_zero hm)]
      by_cases hc : rest.length + 1 ≤ m
      · have h0 : rest.length + 1 - m = 0 := by omega
        rw [h0]
        rw [Nat.div_eq_of_lt (show 0 + m - 1 < m by omega),
          Nat.div_eq_of_lt (show rest.length < m by omega)]
      · have h1 : rest.length + 1 - m + m - 1 = rest.length := by omega
        rw [h1]

/-- The number of chunks is `⌈length / m⌉ = (length + m - 1) / m`. -/
theorem chunkList_length (m : Nat) (hm : m ≠ 0) (l : List α) :
    (chunkList m l).length = (l.length + m - 1) / m :=
  chunkList_length_aux m hm l.length l le_rfl

/-- A non-empty list that fits in one chunk yields exactly one chunk. -/
theorem chunkList_eq_single (m : Nat) (hm : m ≠ 0) (a : α) (rest : List α)
    (hle : (a :: rest).length ≤ m) : chunkList m (a :: rest) = [a :: rest] := by
  rw [chunkList_cons m hm]
  rw [List.take_of_length_le hle, List.drop_of_length_le hle, chunkList_nil]

/-- Association lookup in a `defaultdict`-style group list. -/
def findGroup (gs : List (String × List β)) (k : String) : Option (List β) :=
  (gs.find? fun p => p.1 == k).map (·.2)

theorem findGroup_nil (k : String) : findGroup ([] : List (String × List β)) k = none :=
  rfl

theorem findGroup_cons_eq (k0 : String) (vs : List β) (rest : List (String × List β)) :
    findGroup ((k0, vs) :: rest) k0 = some vs := by
  simp [findGroup, List.find?]

theorem findGroup_cons_ne (k0 : String) (vs : List β) (rest : List (String × List β))
    (k' : String) (h : k0 ≠ k') :
    findGroup ((k0, vs) :: rest) k' = findGroup rest k' := by
  simp only [findGroup, List.find?]
  rw [show (k0 == k') = false from beq_false_of_ne h]

theorem findGroup_addToGroups (gs : List (String × List β)) (k : String) (v : β)
    (k' : String) :
    findGroup (addToGroups gs k v) k'
      = if k' = k then some (((findGroup gs k).getD []) ++ [v])
        else findGroup gs k' := by
  induction gs with
  | nil =>
    by_cases h : k' = k
    · rw [if_pos h, h]
      show findGroup [(k, [v])] k = _
      rw [findGroup_cons_eq, findGroup_nil]
      rfl
    · rw [if_neg h]
      show findGroup [(k, [v])] k' = findGroup [] k'
      rw [findGroup_cons_ne k [v] [] k' fun hh => h hh.symm]
  | cons p rest ih =>
    obtain ⟨k0, vs⟩ := p
    simp only [addToGroups]
    by_cases h0 : k0 = k
    · rw [if_pos h0]
      subst h0
      by_cases h : k' = k0
      · rw [if_pos h]
        subst h
        rw [findGroup_cons_eq, findGroup_cons_eq]
        rfl
      · rw [if_neg h]
        have hk0 : k0 ≠ k' := fun hh => h hh.symm
        rw [findGroup_cons_ne _ _ _ _ hk0, findGroup_cons_ne _ _ _ _ hk0]
    · rw [if_neg h0]
      by_cases h2 : k0 = k'
      · subst h2
        rw [if_neg h0, findGroup_cons_eq, findGroup_cons_eq]
      · rw [findGroup_cons_ne _ _ _ _ h2, ih]
        by_cases h : k' = k
        · rw [if_pos h, if_pos h]
          rw [findGroup_cons_ne _ _ _ _ fun hh => h2 (hh.trans h.symm)]
        · rw [if_neg h, if_neg h, findGroup_cons_ne _ _ _ _ h2]

theorem addToGroups_keys (gs : List (String × List β)) (k : String) (v : β) :
    (addToGroups gs k v).map (·.1)
      = if k ∈ gs.map (·.1) then gs.map (·.1) else gs.map (·.1) ++ [k] := by
  induction gs with
  | nil => simp [addToGroups]
  | cons p rest ih =>
    obtain ⟨k0, vs⟩ := p
    simp only [addToGroups]
    by_cases h0 : k0 = k
    · rw [if_pos h0, h0]
      simp
    · rw [if_neg h0]
      simp only [List.map_cons, ih]
      by_cases hmem : k ∈ rest.map (·.1)
      · rw [if_pos hmem, if_pos (List.mem_cons_of_mem k0 hmem)]
      · have hcond : k ∉ k0 :: rest.map (·.1) := by
          intro hc
          rcases List.mem_cons.mp hc with hc | hc
          · exact h0 hc.symm
          · exact hmem hc
        rw [if_neg hmem, if_neg hcond]
        simp

theorem addToGroups_keys_nodup (gs : List (String × List β)) (k : String) (v : β)
    (h : (gs.map (·.1)).Nodup) : ((addToGroups gs k v).map (·.1)).Nodup := by
  rw [addToGroups_keys]
  split
  · exact h
  · rename_i hmem
    refine List.Nodup.append h (List.nodup_singleton k) ?_
    intro a ha hak
    rw [List.mem_singleton.mp hak] at ha
    exact hmem ha

theorem foldl_gStep_findGroup (nodes : List PyNode) :
    ∀ (acc : List (String × List String)) (t : String), t ≠ "Stressor" →
      findGroup (nodes.foldl gStep acc) t
        = match findGroup acc t with
          | some vs =>
              some (vs ++ (nodes.filter fun n => n.type.getD "Unknown" == t).map (·.id))
          | none =>
              if (nodes.filter fun n => n.type.getD "Unknown" == t) = [] then none
              else some ((nodes.filter fun n => n.type.getD "Unknown" == t).map (·.id)) := by
  induction nodes with
  | nil =>
    intro acc t _
    simp only [List.foldl_nil, List.filter_nil, List.map_nil, List.append_nil]
    cases findGroup acc t <;> simp
  | cons n ns ih =>
    intro acc t ht
    simp only [List.foldl_cons]
    by_cases hS : n.type.getD "Unknown" = "Stressor"
    · have hstep : gStep acc n = acc := by simp [gStep, hS]
      have hfilt : (n.type.getD "Unknown" == t) = false :=
        beq_false_of_ne (fun hc => ht (hS ▸ hc).symm)
      rw [hstep, ih acc t ht]
      simp [List.filter_cons, hfilt]
    · have hstep : gStep acc n = addToGroups acc (n.type.getD "Unknown") n.id := by
        simp [gStep, hS]
      rw [hstep, ih _ t ht]
      by_cases hT : n.type.getD "Unknown" = t
      · have hfilt : (n.type.getD "Unknown" == t) = true := beq_iff_eq.mpr hT
        rw [findGroup_addToGroups acc _ n.id t, if_pos hT.symm]
        simp only [List.filter_cons, hfilt, if_pos rfl, List.map_cons]
        cases hacc : findGroup acc t with
        | some vs => simp [hT, hacc]
        | none => simp [hT, hacc]
      · have hfilt : (n.type.getD "Unknown" == t) = false := beq_false_of_ne hT
        rw [findGroup_addToGroups acc _ n.id t,
          if_neg (fun hc => hT hc.symm)]
        simp [List.filter_cons, hfilt]

/-- `group_nodes_by_type` in closed form: the group of a non-Stressor type `t`
holds exactly the ids of the nodes of that type, in input order (and exists iff
such a node exists). -/
theorem groupNodesByType_findGroup (nodes : List PyNode) (t : String)
    (ht : t ≠ "Stressor") :
    findGroup (groupNodesByType nodes) t
      = if (nodes.filter fun n => n.type.getD "Unknown" == t) = [] then none
        else some ((nodes.filter fun n => n.type.getD "Unknown" == t).map (·.id)) := by
  unfold groupNodesByType
  rw [foldl_gStep_findGroup nodes [] t ht]
  rfl

theorem groupNodesByType_keys_nodup (nodes : List PyNode) :
    ((groupNodesByType nodes).map (·.1)).Nodup := by
  have haux : ∀ (ns : List PyNode) (acc : List (String × List String)),
      (acc.map (·.1)).Nodup → ((ns.foldl gStep acc).map (·.1)).Nodup := by
    intro ns
    induction ns with
    | nil => intro acc h; exact h
    | cons n ns ih =>
      intro acc h
      simp only [List.foldl_cons]
      refine ih (gStep acc n) ?_
      by_cases hS : n.type.getD "Unknown" = "Stressor"
      · rw [show gStep acc n = acc from by simp [gStep, hS]]
        exact h
      · rw [show gStep acc n = addToGroups acc (n.type.getD "Unknown") n.id from by
          simp [gStep, hS]]
        exact addToGroups_keys_nodup acc _ n.id h
  exact haux nodes [] (by simp)

theorem typeHypernodesFor_mem (m : Nat) (t : String) (ms : List String) :
    ∀ h ∈ typeHypernodesFor m t ms,
      h.type = "type-hypernode" ∧ h.original_type = t
        ∧ h.member_count = h.members.length := by
  intro h hh
  rcases List.mem_map.mp hh with ⟨p, _, rfl⟩
  exact ⟨rfl, rfl, rfl⟩

theorem typeHypernodesFor_map_members (m : Nat) (t : String) (ms : List String) :
    (typeHypernodesFor m t ms).map (·.members) = chunkList m ms := by
  unfold typeHypernodesFor
  rw [List.map_map]
  exact List.enum_map_snd _

theorem filter_typeHns_of_not_mem (M : Nat) (t : String)
    (gs : List (String × List String)) (hmem : t ∉ gs.map (·.1)) :
    ((gs.flatMap fun p => typeHypernodesFor M p.1 p.2).filter
      fun h => h.type == "type-hypernode" && h.original_type == t) = [] := by
  induction gs with
  | nil => simp
  | cons p rest ih =>
    obtain ⟨k, vs⟩ := p
    simp only [List.flatMap_cons, List.filter_append]
    have hk : k ≠ t := fun hc => hmem (by simp [hc])
    have hhead : ((typeHypernodesFor M k vs).filter
        fun h => h.type == "type-hypernode" && h.original_type == t) = [] := by
      rw [List.filter_eq_nil_iff]
      intro h hh
      obtain ⟨_, horig, _⟩ := typeHypernodesFor_mem M k vs h hh
      simp [horig, hk]
    rw [hhead, ih fun hc => hmem (by simp [hc])]
    rfl

theorem filter_typeHns (M : Nat) (t : String) :
    ∀ gs : List (String × List String), (gs.map (·.1)).Nodup →
      ((gs.flatMap fun p => typeHypernodesFor M p.1 p.2).filter
        fun h => h.type == "type-hypernode" && h.original_type == t)
      = match findGroup gs t with
        | some ms => typeHypernodesFor M t ms
        | none => [] := by
  intro gs
  induction gs with
  | nil => intro _; simp [findGroup_nil]
  | cons p rest ih =>
    intro hnd
    obtain ⟨k, vs⟩ := p
    simp only [List.map_cons, List.nodup_cons] at hnd
    obtain ⟨hknotin, hndrest⟩ := hnd
    simp only [List.flatMap_cons, List.filter_append]
    by_cases hk : k = t
    · subst hk
      rw [findGroup_cons_eq]
      have hhead : ((typeHypernodesFor M k vs).filter
          fun h => h.type == "type-hypernode" && h.original_type == k)
            = typeHypernodesFor M k vs := by
        rw [List.filter_eq_self]
        intro h hh
        obtain ⟨htyp, horig, _⟩ := typeHypernodesFor_mem M k vs h hh
        simp [htyp, horig]
      rw [hhead, filter_typeHns_of_not_mem M k rest hknotin, List.append_nil]
    · rw [findGroup_cons_ne _ _ _ _ hk]
      have hhead : ((typeHypernodesFor M k vs).filter
          fun h => h.type == "type-hypernode" && h.original_type == t) = [] := by
        rw [List.filter_eq_nil_iff]
        intro h hh
        obtain ⟨_, horig, _⟩ := typeHypernodesFor_mem M k vs h hh
        simp [horig, hk]
      rw [hhead, ih hndrest]
      rfl

theorem sHnsOf_type (nodes : List PyNode) (excl : Bool) :
    ∀ h ∈ sHnsOf nodes excl, h.type = "stressor-hypernode" := by
  intro h hh
  unfold sHnsOf at hh
  rcases List.mem_flatMap.mp hh with ⟨p, _, hmem⟩
  split at hmem
  · rw [List.mem_singleton.mp hmem]
    rfl
  · simp at hmem

/-- The type-`t` hypernodes of a build are exactly the chunk hypernodes of the
type-`t` member list. -/
theorem build_filter_type_t (nodes : List PyNode) (edges : List PyEdge)
    (min_nodes : Nat) (excl : Bool) (t : String) (ht : t ≠ "Stressor")
    (hne : (nodes.filter fun n => n.type.getD "Unknown" == t) ≠ []) :
    ((createHypergraphElements nodes edges min_nodes excl).hypernodes.filter
        fun h => h.type == "type-hypernode" && h.original_type == t)
      = typeHypernodesFor (max 1 min_nodes) t
          ((nodes.filter fun n => n.type.getD "Unknown" == t).map (·.id)) := by
  have hhns : (createHypergraphElements nodes edges min_nodes excl).hypernodes
      = typeHnsOf nodes (max 1 min_nodes) ++ sHnsOf nodes excl := rfl
  rw [hhns, List.filter_append]
  have hs : ((sHnsOf nodes excl).filter
      fun h => h.type == "type-hypernode" && h.original_type == t) = [] := by
    rw [List.filter_eq_nil_iff]
    intro h hh
    have := sHnsOf_type nodes excl h hh
    simp [this]
  rw [hs, List.append_nil]
  unfold typeHnsOf
  rw [filter_typeHns (max 1 min_nodes) t (groupNodesByType nodes)
    (groupNodesByType_keys_nodup nodes)]
  rw [groupNodesByType_findGroup nodes t ht, if_neg hne]

/-- C2: for a non-Stressor type `t` with at least one member and clamped chunk size
`M = max 1 min_nodes` (so any `M ≥ 1` is realized), the build produces exactly
`⌈N/M⌉ = (N + M - 1) / M` type-`t` hypernodes; each holds at most `M` members and
its `member_count` matches; concatenating the chunk member lists in order yields
exactly the type-`t` member ids (so, when node ids are distinct, the union covers
the `N` members with no duplicates); and when `N ≤ M` there is exactly one
hypernode whose id omits the chunk index. -/
theorem c2_type_chunking (nodes : List PyNode) (edges : List PyEdge)
    (min_nodes : Nat) (excl : Bool) (t : String) (ht : t ≠ "Stressor")
    (hne : (nodes.filter fun n => n.type.getD "Unknown" == t) ≠ []) :
    ((createHypergraphElements nodes edges min_nodes excl).hypernodes.filter
        fun h => h.type == "type-hypernode" && h.original_type == t).length
      = (((nodes.filter fun n => n.type.getD "Unknown" == t).map (·.id)).length
          + max 1 min_nodes - 1) / max 1 min_nodes
    ∧ (∀ h ∈ (createHypergraphElements nodes edges min_nodes excl).hypernodes.filter
          fun h => h.type == "type-hypernode" && h.original_type == t,
        h.members.length ≤ max 1 min_nodes ∧ h.member_count = h.members.length)
    ∧ (((createHypergraphElements nodes edges min_nodes excl).hypernodes.filter
          fun h => h.type == "type-hypernode" && h.original_type == t).map
            (·.members)).flatten
        = (nodes.filter fun n => n.type.getD "Unknown" == t).map (·.id)
    ∧ ((nodes.map (·.id)).Nodup →
        ((((createHypergraphElements nodes edges min_nodes excl).hypernodes.filter
          fun h => h.type == "type-hypernode" && h.original_type == t).map
            (·.members)).flatten).Nodup)
    ∧ (((nodes.filter fun n => n.type.getD "Unknown" == t).map (·.id)).length
          ≤ max 1 min_nodes →
        ∃ h : Hypernode,
          ((createHypergraphElements nodes edges min_nodes excl).hypernodes.filter
              fun h => h.type == "type-hypernode" && h.original_type == t) = [h]
          ∧ h.id = "type-hypernode-" ++ t
          ∧ h.members = (nodes.filter fun n => n.type.getD "Unknown" == t).map (·.id)) := by
  have hM : max 1 min_nodes ≠ 0 := by omega
  have hfil := build_filter_type_t nodes edges min_nodes excl t ht hne
  have hmembers : (((createHypergraphElements nodes edges min_nodes excl).hypernodes.filter
      fun h => h.type == "type-hypernode" && h.original_type == t).map (·.members))
        = chunkList (max 1 min_nodes)
            ((nodes.filter fun n => n.type.getD "Unknown" == t).map (·.id)) := by
    rw [hfil, typeHypernodesFor_map_members]
  refine ⟨?_, ?_, ?_, ?_, ?_⟩
  · have := congrArg List.length hmembers
    rw [List.length_map] at this
    rw [this, chunkList_length _ hM]
  · intro h hh
    rw [hfil] at hh
    obtain ⟨_, _, hcount⟩ := typeHypernodesFor_mem _ _ _ h hh
    refine ⟨?_, hcount⟩
    have hmem2 : h.members ∈ chunkList (max 1 min_nodes)
        ((nodes.filter fun n => n.type.getD "Unknown" == t).map (·.id)) := by
      rw [← typeHypernodesFor_map_members (max 1 min_nodes) t]
      exact List.mem_map_of_mem _ hh
    exact chunkList_chunk_length_le _ hM _ _ hmem2
  · rw [hmembers, chunkList_flatten _ hM]
  · intro hnd
    rw [hmembers, chunkList_flatten _ hM]
    exact List.Nodup.sublist (List.Sublist.map _ (List.filter_sublist nodes)) hnd
  · intro hle
    rw [hfil]
    rcases hms : (nodes.filter fun n => n.type.getD "Unknown" == t).map (·.id) with
      _ | ⟨a, rest⟩
    · exact absurd (by simpa using congrArg List.length hms) (by
        simpa [List.length_eq_zero] using hne)
    · rw [hms] at hle
      have hchunks : chunkList (max 1 min_nodes) (a :: rest) = [a :: rest] :=
        chunkList_eq_single _ hM a rest hle
      refine ⟨{ id := typeHnId t (a :: rest).length (max 1 min_nodes) 1
                label :=
                  if (a :: rest).length > max 1 min_nodes then
                    t ++ " Group " ++ toString 1 ++ " ("
                      ++ toString (a :: rest).length ++ ")"
                  else t ++ " Group (" ++ toString (a :: rest).length ++ ")"
                type := "type-hypernode"
                original_type := t
                member_count := (a :: rest).length
                members := a :: rest }, ?_, ?_, ?_⟩
      · rw [hms]
        unfold typeHypernodesFor
        rw [hchunks]
        rfl
      · show typeHnId t (a :: rest).length (max 1 min_nodes) 1 = "type-hypernode-" ++ t
        unfold typeHnId
        rw [if_neg (by omega)]
      · rw [hms]

/-- C2 witness: five `KeyEvent` nodes with `max_per_hypernode = 4` yield exactly
two hypernodes (the spec's own scenario). -/
theorem c2_witness :
    ((createHypergraphElements
        [{ id := "n1", type := some "KeyEvent" }, { id := "n2", type := some "KeyEvent" },
         { id := "n3", type := some "KeyEvent" }, { id := "n4", type := some "KeyEvent" },
         { id := "n5", type := some "KeyEvent" }] [] 4 false).hypernodes.filter
      fun h => h.type == "type-hypernode" && h.original_type == "KeyEvent").length = 2 :=
  (c2_type_chunking
    [{ id := "n1", type := some "KeyEvent" }, { id := "n2", type := some "KeyEvent" },
     { id := "n3", type := some "KeyEvent" }, { id := "n4", type := some "KeyEvent" },
     { id := "n5", type := some "KeyEvent" }] [] 4 false "KeyEvent" (by decide)
    (by decide)).1.trans (by decide)

/-! ### C6: pathway-id normalization -/

theorem splitOnChar_ne_nil (sep : Char) (l : List Char) : splitOnChar sep l ≠ [] := by
  induction l with
  | nil => simp [splitOnChar]
  | cons c rest ih =>
    simp only [splitOnChar]
    split
    · simp
    · cases hr : splitOnChar sep rest with
      | nil => simp
      | cons h t => simp

theorem splitOnChar_subset (sep : Char) (l : List Char) :
    ∀ part ∈ splitOnChar sep l, ∀ c ∈ part, c ∈ l := by
  induction l with
  | nil =>
    intro part hp c hc
    simp only [splitOnChar, List.mem_singleton] at hp
    subst hp
    simp at hc
  | cons c0 rest ih =>
    intro part hp c hc
    simp only [splitOnChar] at hp
    by_cases hsep : c0 = sep
    · rw [if_pos hsep] at hp
      rcases List.mem_cons.mp hp with hp | hp
      · subst hp; simp at hc
      · exact List.mem_cons_of_mem c0 (ih part hp c hc)
    · rw [if_neg hsep] at hp
      cases hr : splitOnChar sep rest with
      | nil => exact absurd hr (splitOnChar_ne_nil sep rest)
      | cons h t =>
        rw [hr] at hp
        rcases List.mem_cons.mp hp with hp | hp
        · subst hp
          rcases List.mem_cons.mp hc with hc | hc
          · simp [hc]
          · refine List.mem_cons_of_mem c0 (ih h ?_ c hc)
            rw [hr]; exact List.mem_cons_self h t
        · refine List.mem_cons_of_mem c0 (ih part ?_ c hc)
          rw [hr]; exact List.mem_cons_of_mem h hp

theorem splitOnChar_no_sep (sep : Char) (l : List Char) (h : ∀ c ∈ l, c ≠ sep) :
    splitOnChar sep l = [l] := by
  induction l with
  | nil => rfl
  | cons c0 rest ih =>
    simp only [splitOnChar]
    rw [if_neg (h c0 (List.mem_cons_self c0 rest))]
    rw [ih fun c hc => h c (List.mem_cons_of_mem c0 hc)]

/-- Every character of the extracted key is a digit. -/
theorem extractAopId_all_digits (v : String) :
    ∀ c ∈ (extractAopId v).data, c.isDigit := by
  intro c hc
  unfold extractAopId at hc
  exact (List.mem_filter.mp hc).2

/-- A string with no digits extracts to the empty key. -/
theorem extractAopId_eq_empty (v : String) (h : ∀ c ∈ v.data, ¬ c.isDigit) :
    extractAopId v = "" := by
  unfold extractAopId
  have hne := splitOnChar_ne_nil ':' v.data
  have hmem : (splitOnChar ':' v.data).getLastD v.data ∈ splitOnChar ':' v.data := by
    cases hs : splitOnChar ':' v.data with
    | nil => exact absurd hs hne
    | cons a t =>
      rw [List.getLastD_eq_getLast?]
      rw [show (a :: t).getLast? = some ((a :: t).getLast (by simp)) from
        List.getLast?_eq_getLast _ (by simp)]
      exact List.getLast_mem _
  have hfil : ((splitOnChar ':' v.data).getLastD v.data).filter Char.isDigit = [] := by
    rw [List.filter_eq_nil_iff]
    intro c hc
    exact by simpa using h c (splitOnChar_subset ':' v.data _ hmem c hc)
  rw [hfil]

/-- A non-empty all-digit string extracts to itself. -/
theorem extractAopId_of_all_digits (v : String) (h : ∀ c ∈ v.data, c.isDigit) :
    extractAopId v = v := by
  unfold extractAopId
  rw [splitOnChar_no_sep ':' v.data
    (fun c hc hcolon => by simpa [hcolon] using h c hc)]
  rw [show (([v.data] : List (List Char)).getLastD v.data) = v.data from rfl]
  rw [List.filter_eq_self.mpr h]

/-- C6: `"Aop:315"`, `"AOP:315"` and `"315"` all normalize to the digits-only key
`"315"`; a digit-free input normalizes to `""`; every extracted key consists of
digits only; and three stressors carrying the three forms are grouped into one
single stressor-hypernode with all three as members. -/
theorem c6_pathway_id_normalization :
    extractAopId "Aop:315" = "315"
    ∧ extractAopId "AOP:315" = "315"
    ∧ extractAopId "315" = "315"
    ∧ (∀ v : String, (∀ c ∈ v.data, ¬ c.isDigit) → extractAopId v = "")
    ∧ (∀ v : String, ∀ c ∈ (extractAopId v).data, c.isDigit)
    ∧ (((createHypergraphElements
          [{ id := "s1", type := some "Stressor", aop := some "Aop:315" },
           { id := "s2", type := some "Stressor", aop := some "AOP:315" },
           { id := "s3", type := some "Stressor", aop := some "315" }] [] 4
          false).hypernodes.filter fun h => h.type == "stressor-hypernode").map
            (fun h => (h.id, h.members))
        = [("stressor-hypernode-aop-315", ["s1", "s2", "s3"])]) := by
  refine ⟨by decide, by decide, by decide, extractAopId_eq_empty,
    extractAopId_all_digits, by decide⟩

/-- C6 witness: the digit-free input `"Aop:xyz"` normalizes to the empty string,
via the theorem's universally quantified conjunct. -/
theorem c6_witness : extractAopId "Aop:xyz" = "" :=
  c6_pathway_id_normalization.2.2.2.1 "Aop:xyz" (by decide)

/-! ### The path finder (`main.py`)

`build_graph_from_data` builds a `defaultdict(list)` adjacency from the edges
alone (its `nodes` are never consulted); we model the dict as the list of accepted
`(source, target)` pairs, whose lookup `graph[v]` is the targets of the pairs with
source `v`, in insertion order. -/

/-- The acceptance test of `build_graph_from_data`: `if source and target:` —
both fields truthy (present and non-empty); node membership is never checked. -/
def acceptEdge (e : PyEdge) : Option (String × String) :=
  match e.source, e.target with
  | some s, some t => if s ≠ "" ∧ t ≠ "" then some (s, t) else none
  | _, _ => none

/-- `build_graph_from_data`: keep `(source, target)` for every accepted edge. -/
def buildGraphFromData (edges : List PyEdge) : List (String × String) :=
  edges.filterMap acceptEdge

/-- `graph[v]`: the recorded successors of `v`, in insertion order (a missing key
yields `[]`, as `defaultdict(list)` does). -/
def neighbors (g : List (String × String)) (v : String) : List String :=
  (g.filter fun p => p.1 == v).map (·.2)

/-- The NetworkX graph built by `build_networkx_graph`: node ids, and the accepted
`(source, target)` pairs — an edge is kept only when `source` and `target` are
truthy and `G.has_node` holds for both.  Per-edge attributes (including the weight
computed from optional numeric `confidence`/`adjacency` strings) are data the
claims never consult and are not modelled; the node *set* of the Python graph is
the set of ids in `nodeIds`. -/
structure NXGraph where
  nodeIds : List String
  edges : List (String × String)
  deriving DecidableEq, Repr

/-- The acceptance test of `build_networkx_graph`'s edge loop:
`if source and target and G.has_node(source) and G.has_node(target):`. -/
def acceptEdgeNX (ids : List String) (e : PyEdge) : Option (String × String) :=
  match e.source, e.target with
  | some s, some t =>
    if s ≠ "" ∧ t ≠ "" ∧ s ∈ ids ∧ t ∈ ids then some (s, t) else none
  | _, _ => none

/-- `build_networkx_graph(nodes, edges)`. -/
def buildNXGraph (nodes : List PyNode) (edges : List PyEdge) : NXGraph :=
  { nodeIds := nodes.map (·.id)
    edges := edges.filterMap (acceptEdgeNX (nodes.map (·.id))) }

/-- One pass over the popped node's neighbor list in `find_shortest_path`: return
the finished path as soon as a neighbor equals `end`, otherwise enqueue each
unvisited neighbor (marking it visited) at the back of the queue. -/
def processNeighbors (endv : String) (path : List String) :
    List String → List String → List (String × List String)
      → Sum (List String) (List String × List (String × List String))
  | [], vis, acc => Sum.inr (vis, acc)
  | n :: ns, vis, acc =>
    if n == endv then Sum.inl (path ++ [n])
    else if n ∈ vis then processNeighbors endv path ns vis acc
    else processNeighbors endv path ns (n :: vis) (acc ++ [(n, path ++ [n])])

/-- The BFS `while queue:` loop of `find_shortest_path`, with explicit fuel (the
caller passes a provably sufficient amount, see `bfsFuel`). -/
def bfsLoop (g : List (String × String)) (endv : String) :
    Nat → List (String × List String) → List String → Option (List String)
  | 0, _, _ => none
  | _ + 1, [], _ => none
  | fuel + 1, (node, path) :: rest, vis =>
    match processNeighbors endv path (neighbors g node) vis [] with
    | Sum.inl found => some found
    | Sum.inr (vis2, adds) => bfsLoop g endv fuel (rest ++ adds) vis2

/-- An upper bound on the number of BFS iterations: every iteration pops one
entry, and at most `1 + g.length` entries are ever enqueued (each enqueue marks a
fresh visited node, and visited nodes are among `start` and the edge targets). -/
def bfsFuel (g : List (String × String)) : Nat := g.length + 1

/-- `find_shortest_path(graph, start, end)`. -/
def find_shortest_path (g : List (String × String)) (start endv : String) :
    Option (List String) :=
  if start == endv then some [start]
  else bfsLoop g endv (bfsFuel g) [(start, [start])] [start]

/-- The ordering the k-shortest queue is sorted by: the stored length only
(`key=lambda x: x[0]`); Python's sort is stable, and a stable sort by a key is
extensionally unique, so the stable `insertionSort` models it exactly. -/
def kqRel (a b : Nat × List String) : Prop := a.1 ≤ b.1

instance : DecidableRel kqRel := fun a b => Nat.decLe a.1 b.1

instance : IsTotal (Nat × List String) kqRel :=
  ⟨fun a b => Nat.le_total a.1 b.1⟩

instance : IsTrans (Nat × List String) kqRel :=
  ⟨fun _ _ _ hab hbc => Nat.le_trans hab hbc⟩

/-- The `while queue and len(paths) < k:` loop of `find_k_shortest_paths`: sort
the queue by stored length, pop the front; emit it if it reached `end`, else
extend it with every neighbor not already on the path (stored length =
`len(new_path)`, the node count).  Fuel-indexed; every property proved about it
holds for all fuels. -/
def kShortestLoop (g : List (String × String)) (endv : String) (k : Nat) :
    Nat → List (List String) → List (Nat × List String) → List (List String)
  | 0, paths, _ => paths
  | fuel + 1, paths, queue =>
    if queue = [] ∨ k ≤ paths.length then paths
    else
      match List.insertionSort kqRel queue with
      | [] => paths
      | (_len, path) :: rest =>
        let current := path.getLastD ""
        if current == endv then kShortestLoop g endv k fuel (paths ++ [path]) rest
        else
          kShortestLoop g endv k fuel paths
            (rest ++ ((neighbors g current).filter fun nb => !path.contains nb).map
              fun nb => (path.length + 1, path ++ [nb]))

/-- `find_k_shortest_paths(graph, start, end, k)`. -/
def find_k_shortest_paths (g : List (String × String)) (start endv : String)
    (k : Nat) (fuel : Nat) : List (List String) :=
  if start == endv then [[start]]
  else kShortestLoop g endv k fuel [] [(0, [start])]

/-! ### C3: endpoint policy of the adjacency builders -/

/-- C3 (amended): the NetworkX builder silently skips every edge whose endpoints
are not both present among the node ids, so its edge set mentions only input node
ids; the path-finder's adjacency builder `build_graph_from_data`, however, checks
only that `source` and `target` are truthy — a pair enters the adjacency iff both
endpoints are present and non-empty, with no node-list test (and no error in
either case: both are total functions). -/
theorem c3_adjacency_endpoint_policy (nodes : List PyNode) (edges : List PyEdge) :
    (∀ p ∈ (buildNXGraph nodes edges).edges,
        p.1 ∈ nodes.map (·.id) ∧ p.2 ∈ nodes.map (·.id))
    ∧ (∀ p : String × String,
        p ∈ buildGraphFromData edges
          ↔ ∃ e ∈ edges, e.source = some p.1 ∧ e.target = some p.2
              ∧ p.1 ≠ "" ∧ p.2 ≠ "") := by
  constructor
  · intro p hp
    unfold buildNXGraph at hp
    simp only at hp
    rcases List.mem_filterMap.mp hp with ⟨e, _, hfe⟩
    cases hs : e.source with
    | none => rw [acceptEdgeNX, hs] at hfe; exact Option.noConfusion hfe
    | some s =>
      cases ht : e.target with
      | none => rw [acceptEdgeNX, hs, ht] at hfe; exact Option.noConfusion hfe
      | some t =>
        rw [acceptEdgeNX, hs, ht] at hfe
        simp only at hfe
        split at hfe
        · rename_i hcond
          have hp2 : (s, t) = p := Option.some.inj hfe
          subst hp2
          exact ⟨hcond.2.2.1, hcond.2.2.2⟩
        · exact Option.noConfusion hfe
  · intro p
    constructor
    · intro hp
      rcases List.mem_filterMap.mp hp with ⟨e, hmem, hfe⟩
      refine ⟨e, hmem, ?_⟩
      cases hs : e.source with
      | none => rw [acceptEdge, hs] at hfe; exact Option.noConfusion hfe
      | some s =>
        cases ht : e.target with
        | none => rw [acceptEdge, hs, ht] at hfe; exact Option.noConfusion hfe
        | some t =>
          rw [acceptEdge, hs, ht] at hfe
          simp only at hfe
          split at hfe
          · rename_i hcond
            have hp2 : (s, t) = p := Option.some.inj hfe
            subst hp2
            exact ⟨rfl, rfl, hcond.1, hcond.2⟩
          · exact Option.noConfusion hfe
    · rintro ⟨e, hmem, hs, ht, hs1, ht1⟩
      refine List.mem_filterMap.mpr ⟨e, hmem, ?_⟩
      rw [acceptEdge, hs, ht]
      simp only
      rw [if_pos ⟨hs1, ht1⟩]

/-- C3 witness: a concrete edge between two listed nodes appears in both
adjacency structures, with both endpoints among the node ids. -/
theorem c3_witness :
    ("A" ∈ ([{ id := "A" }, { id := "B" }] : List PyNode).map (·.id)
      ∧ "B" ∈ ([{ id := "A" }, { id := "B" }] : List PyNode).map (·.id))
    ∧ ("A", "B") ∈ buildGraphFromData [{ source := some "A", target := some "B" }] := by
  constructor
  · exact (c3_adjacency_endpoint_policy [{ id := "A" }, { id := "B" }]
      [{ source := some "A", target := some "B" }]).1 ("A", "B") (by decide)
  · exact ((c3_adjacency_endpoint_policy [{ id := "A" }, { id := "B" }]
      [{ source := some "A", target := some "B" }]).2 ("A", "B")).mpr
      ⟨{ source := some "A", target := some "B" }, by decide, rfl, rfl,
        by decide, by decide⟩

/-- C3 counterexample: with node list `["A"]` and the single edge `X → Y`,
`build_graph_from_data` records the pair `("X", "Y")` although neither endpoint is
in the node list — the claimed endpoint check does not exist in that builder. -/
theorem c3_counterexample :
    ("X", "Y") ∈ buildGraphFromData [{ source := some "X", target := some "Y" }]
    ∧ "X" ∉ (["A"] : List String) ∧ "Y" ∉ (["A"] : List String) := by decide

/-! ### C10: `k_shortest_paths` when start equals end -/

/-- C10: when `start = end`, `find_k_shortest_paths` returns exactly `[[start]]`
for every adjacency and every `k` (including `k = 0`) and every fuel, without
consulting the graph: no self-cycle is ever reported and the result is non-empty
even for `k = 0`. -/
theorem c10_start_eq_end (g : List (String × String)) (s : String) (k fuel : Nat) :
    find_k_shortest_paths g s s k fuel = [[s]] := by
  unfold find_k_shortest_paths
  rw [if_pos (beq_iff_eq.mpr rfl)]

/-! ### C8 / C9: the `k_shortest_paths` loop invariant -/

/-- The invariant of one `k_shortest_paths` queue entry: its stored length is the
node count of its path (except the initial `(0, [start])` entry, which can never
be emitted because its endpoint is not `end`), its path is non-empty and simple. -/
def KQEntryInv (endv : String) (e : Nat × List String) : Prop :=
  (e.1 = e.2.length ∨ (e.1 = 0 ∧ e.2.length = 1 ∧ e.2.getLastD "" ≠ endv))
    ∧ e.2 ≠ [] ∧ e.2.Nodup

/-- The stored length of the most recently emitted path (0 before any emission). -/
def lastEmittedLen (paths : List (List String)) : Nat :=
  (paths.getLast?.map fun p => p.length).getD 0

/-- One unfolding of the `k_shortest_paths` loop when the queue sorts to a cons
and the loop guard passes. -/
theorem kShortestLoop_succ_cons (g : List (String × String)) (endv : String)
    (k fuel : Nat) (paths : List (List String)) (len : Nat) (path : List String)
    (rest queue : List (Nat × List String))
    (hsort : List.insertionSort kqRel queue = (len, path) :: rest)
    (hcont : ¬(queue = [] ∨ k ≤ paths.length)) :
    kShortestLoop g endv k (fuel + 1) paths queue
      = if (path.getLastD "" == endv) = true then
          kShortestLoop g endv k fuel (paths ++ [path]) rest
        else
          kShortestLoop g endv k fuel paths
            (rest ++ ((neighbors g (path.getLastD "")).filter
              fun nb => !path.contains nb).map
                fun nb => (path.length + 1, path ++ [nb])) := by
  simp only [kShortestLoop]
  rw [if_neg hcont, hsort]

theorem kShortestLoop_invariant (g : List (String × String)) (endv : String)
    (k : Nat) :
    ∀ (fuel : Nat) (paths : List (List String)) (queue : List (Nat × List String)),
      (∀ e ∈ queue, KQEntryInv endv e) →
      (∀ e ∈ queue, lastEmittedLen paths ≤ e.1) →
      paths.Chain' (fun p q => p.length ≤ q.length) →
      paths.length ≤ k →
      (∀ p ∈ paths, p.Nodup) →
      (kShortestLoop g endv k fuel paths queue).Chain'
          (fun p q => p.length ≤ q.length)
        ∧ (kShortestLoop g endv k fuel paths queue).length ≤ k
        ∧ ∀ p ∈ kShortestLoop g endv k fuel paths queue, p.Nodup := by
  intro fuel
  induction fuel with
  | zero =>
    intro paths queue _ _ h3 h4 h5
    simp only [kShortestLoop]
    exact ⟨h3, h4, h5⟩
  | succ fuel ih =>
    intro paths queue h1 h2 h3 h4 h5
    by_cases hcont : queue = [] ∨ k ≤ paths.length
    · simp only [kShortestLoop]
      rw [if_pos hcont]
      exact ⟨h3, h4, h5⟩
    · have hperm := List.perm_insertionSort kqRel queue
      have hsorted := List.sorted_insertionSort kqRel queue
      cases hsort : List.insertionSort kqRel queue with
      | nil =>
        rw [hsort] at hperm
        exact absurd (Or.inl hperm.symm.eq_nil) hcont
      | cons hd rest =>
        obtain ⟨len, path⟩ := hd
        rw [hsort] at hperm hsorted
        rw [kShortestLoop_succ_cons g endv k fuel paths len path rest queue hsort
          hcont]
        have hmemQ : ∀ e ∈ (len, path) :: rest, e ∈ queue := fun e he =>
          hperm.mem_iff.mp he
        have hheadInv : KQEntryInv endv (len, path) :=
          h1 _ (hmemQ _ (List.mem_cons_self _ _))
        have hheadle : ∀ e ∈ rest, len ≤ e.1 := fun e he =>
          List.rel_of_sorted_cons hsorted e he
        have hlenle : len ≤ path.length := by
          rcases hheadInv.1 with h | h
          · simp only at h
            omega
          · simp only at h
            omega
        have hklt : paths.length < k := by
          rcases not_or.mp hcont with ⟨_, hk⟩
          omega
        by_cases hcur : (path.getLastD "" == endv) = true
        · rw [if_pos hcur]
          have hlen : len = path.length := by
            rcases hheadInv.1 with h | h
            · exact h
            · exact absurd (beq_iff_eq.mp hcur) h.2.2
          refine ih (paths ++ [path]) rest
            (fun e he => h1 _ (hmemQ _ (List.mem_cons_of_mem _ he)))
            ?_ ?_ ?_ ?_
          · intro e he
            have hlast : lastEmittedLen (paths ++ [path]) = path.length := by
              unfold lastEmittedLen
              rw [List.getLast?_concat]
              rfl
            rw [hlast, ← hlen]
            exact hheadle e he
          · rw [List.chain'_append]
            refine ⟨h3, List.chain'_singleton path, ?_⟩
            intro x hx y hy
            rw [List.head?_cons, Option.mem_def, Option.some.injEq] at hy
            subst hy
            have hle2 := h2 _ (hmemQ _ (List.mem_cons_self _ _))
            unfold lastEmittedLen at hle2
            rw [Option.mem_def] at hx
            rw [hx] at hle2
            simp only [Option.map_some', Option.getD_some] at hle2
            omega
          · rw [List.length_append, List.length_singleton]
            omega
          · intro p hp
            rcases List.mem_append.mp hp with hp | hp
            · exact h5 p hp
            · rw [List.mem_singleton.mp hp]
              exact hheadInv.2.2
        · rw [if_neg hcur]
          refine ih paths
            (rest ++ ((neighbors g (path.getLastD "")).filter
              fun nb => !path.contains nb).map
                fun nb => (path.length + 1, path ++ [nb])) ?_ ?_ h3 h4 h5
          · intro e he
            rcases List.mem_append.mp he with he | he
            · exact h1 _ (hmemQ _ (List.mem_cons_of_mem _ he))
            · rcases List.mem_map.mp he with ⟨nb, hnb, rfl⟩
              have hnbmem := List.mem_filter.mp hnb
              have hnotin : nb ∉ path := by
                have hb := hnbmem.2
                simpa using hb
              refine ⟨Or.inl (by simp), by simp, ?_⟩
              refine List.Nodup.append hheadInv.2.2 (List.nodup_singleton nb) ?_
              intro a ha hb
              rw [List.mem_singleton.mp hb] at ha
              exact hnotin ha
          · intro e he
            rcases List.mem_append.mp he with he | he
            · exact h2 _ (hmemQ _ (List.mem_cons_of_mem _ he))
            · rcases List.mem_map.mp he with ⟨nb, _, rfl⟩
              have hle2 := h2 _ (hmemQ _ (List.mem_cons_self _ _))
              simp only
              omega

/-- C8: every path returned by `find_k_shortest_paths` is simple — it visits no
node twice (for every graph, endpoints, bound and fuel). -/
theorem c8_paths_simple (g : List (String × String)) (s e : String) (k fuel : Nat) :
    ∀ p ∈ find_k_shortest_paths g s e k fuel, p.Nodup := by
  unfold find_k_shortest_paths
  split
  · intro p hp
    rw [List.mem_singleton.mp hp]
    exact List.nodup_singleton s
  · rename_i hse
    intro p hp
    refine (kShortestLoop_invariant g e k fuel [] [(0, [s])] ?_ ?_ ?_ ?_ ?_).2.2 p hp
    · intro e' he'
      rw [List.mem_singleton.mp he']
      refine ⟨Or.inr ⟨rfl, rfl, ?_⟩, by simp, List.nodup_singleton s⟩
      show s ≠ e
      intro hc
      exact hse (beq_iff_eq.mpr hc)
    · intro e' he'
      simp [lastEmittedLen]
    · exact List.chain'_nil
    · simp
    · simp

/-- C8 witness: the single path returned on the one-edge graph `A → B` is
simple. -/
theorem c8_witness : (["A", "B"] : List String).Nodup :=
  c8_paths_simple [("A", "B")] "A" "B" 3 5 ["A", "B"] (by decide)

/-- C9 (amended): `find_k_shortest_paths` returns at most `k` paths whenever
`k ≥ 1` or `start ≠ end` (when `start = end` and `k = 0` it returns one path, see
the counterexample), and consecutive returned paths always have non-decreasing
length, for every graph and every fuel. -/
theorem c9_ordered_k_bound (g : List (String × String)) (s e : String)
    (k fuel : Nat) :
    ((s ≠ e ∨ 1 ≤ k) → (find_k_shortest_paths g s e k fuel).length ≤ k)
    ∧ (find_k_shortest_paths g s e k fuel).Chain' fun p q => p.length ≤ q.length := by
  unfold find_k_shortest_paths
  split
  · rename_i hse
    constructor
    · intro h
      rcases h with h | h
      · exact absurd (beq_iff_eq.mp hse) h
      · simpa using h
    · exact List.chain'_singleton _
  · rename_i hse
    have hinv := kShortestLoop_invariant g e k fuel [] [(0, [s])]
      (fun e' he' => by
        rw [List.mem_singleton.mp he']
        refine ⟨Or.inr ⟨rfl, rfl, ?_⟩, by simp, List.nodup_singleton s⟩
        show s ≠ e
        intro hc
        exact hse (beq_iff_eq.mpr hc))
      (fun e' he' => by simp [lastEmittedLen])
      List.chain'_nil (by simp) (by simp)
    exact ⟨fun _ => hinv.2.1, hinv.1⟩

/-- C9 witness: on the graph `A → B` with `k = 1` the call returns at most one
path, and the returned list is ordered by length. -/
theorem c9_witness :
    (find_k_shortest_paths [("A", "B")] "A" "B" 1 10).length ≤ 1 :=
  (c9_ordered_k_bound [("A", "B")] "A" "B" 1 10).1 (Or.inr (by decide))

/-- C9 counterexample: with `start = end = "A"` and `k = 0` the function returns
`[["A"]]`, one path, so the returned list exceeds the bound `k`. -/
theorem c9_counterexample :
    ¬ (find_k_shortest_paths [] "A" "A" 0 5).length ≤ 0 := by decide

/-! ### C7: BFS shortest path

A path from `s` to `e` is a non-empty node sequence starting at `s`, ending at
`e`, each consecutive pair being an edge of the adjacency (`b ∈ graph[a]`).  Its
edge count is `length - 1`, so comparing node counts compares edge counts. -/

/-- `p` is a walk from `s` to `e` along the adjacency `g`. -/
def IsPathFrom (g : List (String × String)) (p : List String) (s e : String) :
    Prop :=
  p ≠ [] ∧ p.head? = some s ∧ p.getLast? = some e
    ∧ p.Chain' fun a b => b ∈ neighbors g a

/-- Node ids a BFS from `s` can ever visit: `s` and the edge targets. -/
def bfsUniverse (g : List (String × String)) (s : String) : List String :=
  s :: g.map (·.2)

theorem mem_neighbors (g : List (String × String)) (a b : String) :
    b ∈ neighbors g a ↔ (a, b) ∈ g := by
  unfold neighbors
  constructor
  · intro hb
    rcases List.mem_map.mp hb with ⟨pr, hpr, rfl⟩
    obtain ⟨hmem, hbeq⟩ := List.mem_filter.mp hpr
    have h1 : pr.1 = a := beq_iff_eq.mp hbeq
    rw [← h1]
    simpa using hmem
  · intro hab
    exact List.mem_map.mpr ⟨(a, b), List.mem_filter.mpr ⟨hab, beq_iff_eq.mpr rfl⟩, rfl⟩

theorem neighbors_subset_universe (g : List (String × String)) (s a : String) :
    ∀ b ∈ neighbors g a, b ∈ bfsUniverse g s := by
  intro b hb
  rcases List.mem_map.mp hb with ⟨pr, hpr, rfl⟩
  exact List.mem_cons_of_mem s (List.mem_map_of_mem _ (List.mem_filter.mp hpr).1)

/-- Extending a path by one neighbor of its endpoint. -/
theorem IsPathFrom.append_neighbor {g : List (String × String)} {p : List String}
    {s n w : String} (hp : IsPathFrom g p s n) (hw : w ∈ neighbors g n) :
    IsPathFrom g (p ++ [w]) s w := by
  obtain ⟨hne, hhead, hlast, hchain⟩ := hp
  refine ⟨by simp, ?_, ?_, ?_⟩
  · cases p with
    | nil => exact absurd rfl hne
    | cons a rest => simpa using hhead
  · exact List.getLast?_concat p
  · rw [List.chain'_append]
    refine ⟨hchain, List.chain'_singleton w, ?_⟩
    intro x hx y hy
    rw [Option.mem_def] at hx
    rw [List.head?_cons, Option.mem_def, Option.some.injEq] at hy
    subst hy
    rw [hlast, Option.some.injEq] at hx
    subst hx
    exact hw

/-- Every path is at least one node long. -/
theorem IsPathFrom.one_le_length {g : List (String × String)} {p : List String}
    {s e : String} (hp : IsPathFrom g p s e) : 1 ≤ p.length := by
  cases p with
  | nil => exact absurd rfl hp.1
  | cons a rest => simp

/-- Splitting a sequence at the first exit from a vertex set `V`: if the head is
in `V` but some element is not, the sequence is a `V`-prefix followed by a first
element outside `V`. -/
theorem exit_split (V : List String) :
    ∀ q : List String, (∀ h ∈ q.head?, h ∈ V) → (∃ x ∈ q, x ∉ V) →
      ∃ (q₁ : List String) (v w : String) (q₂ : List String),
        q = (q₁ ++ [v]) ++ w :: q₂ ∧ (∀ x ∈ q₁ ++ [v], x ∈ V) ∧ w ∉ V := by
  intro q
  induction q with
  | nil =>
    intro _ hex
    simp at hex
  | cons a q' ih =>
    intro hhead hex
    have ha : a ∈ V := hhead a (by simp)
    cases q' with
    | nil =>
      rcases hex with ⟨x, hx, hxV⟩
      rw [List.mem_singleton.mp hx] at hxV
      exact absurd ha hxV
    | cons b q'' =>
      by_cases hb : b ∈ V
      · have hex' : ∃ x ∈ b :: q'', x ∉ V := by
          rcases hex with ⟨x, hx, hxV⟩
          rcases List.mem_cons.mp hx with hx | hx
          · exact absurd (hx ▸ ha) hxV
          · exact ⟨x, hx, hxV⟩
        rcases ih (by simpa using hb) hex' with ⟨q₁, v, w, q₂, heq, hin, hout⟩
        refine ⟨a :: q₁, v, w, q₂, ?_, ?_, hout⟩
        · rw [show ((a :: q₁) ++ [v]) ++ w :: q₂ = a :: ((q₁ ++ [v]) ++ w :: q₂) by
            simp]
          rw [← heq]
        · intro x hx
          rcases List.mem_cons.mp hx with hx | hx
          · exact hx ▸ ha
          · exact hin x hx
      · exact ⟨[], a, b, q'', by simp, by simpa using ha, hb⟩

/-- The `V`-prefix produced by `exit_split` is itself a path, and the exit vertex
is a neighbor of the prefix endpoint. -/
theorem path_split_facts {g : List (String × String)} {q q₁ : List String}
    {s e v w : String} {q₂ : List String} (hq : IsPathFrom g q s e)
    (heq : q = (q₁ ++ [v]) ++ w :: q₂) :
    IsPathFrom g (q₁ ++ [v]) s v ∧ w ∈ neighbors g v
      ∧ q.length = q₁.length + 1 + (q₂.length + 1) := by
  obtain ⟨hne, hhead, _, hchain⟩ := hq
  rw [heq] at hchain hhead
  rw [List.chain'_append] at hchain
  obtain ⟨hchain1, _, hlink⟩ := hchain
  refine ⟨⟨by simp, ?_, ?_, hchain1⟩, ?_, ?_⟩
  · rw [List.head?_append_of_ne_nil _ (by simp)] at hhead
    exact hhead
  · exact List.getLast?_concat q₁
  · exact hlink v (by rw [List.getLast?_concat q₁]; rfl) w (by simp)
  · rw [heq]
    simp
    omega

/-- The BFS lower bound: while the front entry `(n, p)` is being expanded, any
vertex `w` not yet visited (and also the never-visited `end` vertex) admits no
path from `s` shorter than `p.length + 1` nodes.  `ctx` is the rest of the queue
together with the entries already requeued during this expansion. -/
theorem bfs_fresh_lower_bound (g : List (String × String)) (s : String)
    (ctx : List (String × List String)) (vis : List String) (n : String)
    (p : List String) (w : String)
    (hpmin : ∀ q, IsPathFrom g q s n → p.length ≤ q.length)
    (hctxmin : ∀ e ∈ ctx, ∀ q, IsPathFrom g q s e.1 → e.2.length ≤ q.length)
    (hctxge : ∀ e ∈ ctx, p.length ≤ e.2.length)
    (hvisexp : ∀ v ∈ vis, v ∉ ctx.map (·.1) → v ≠ n →
      ∀ u ∈ neighbors g v, u ∈ vis)
    (hs : s ∈ vis) (hw : w ∉ vis) :
    ∀ q, IsPathFrom g q s w → p.length + 1 ≤ q.length := by
  intro q hq
  have hwq : w ∈ q := by
    have := hq.2.2.1
    cases hql : q.getLast? with
    | none => rw [hql] at this; exact Option.noConfusion this
    | some x =>
      rw [hql, Option.some.injEq] at this
      subst this
      rcases List.mem_getLast?_eq_getLast (l := q) (by rw [hql]; rfl) with ⟨hq0, hxl⟩
      rw [hxl]
      exact List.getLast_mem hq0
  have hsplit := exit_split vis q
    (by
      intro h hh
      rw [hq.2.1] at hh
      rw [Option.mem_def, Option.some.injEq] at hh
      subst hh
      exact hs)
    ⟨w, hwq, hw⟩
  rcases hsplit with ⟨q₁, v, w', q₂, heq, hin, hout⟩
  obtain ⟨hpre0, hnbr, hlen⟩ := path_split_facts hq heq
  have hvV : v ∈ vis := hin v (by simp)
  by_cases hvctx : v ∈ ctx.map (·.1)
  · rcases List.mem_map.mp hvctx with ⟨e, hemem, hev⟩
    have h1 : e.2.length ≤ q₁.length + 1 := by
      have := hctxmin e hemem (q₁ ++ [v]) (hev ▸ hpre0)
      simpa using this
    have h2 : p.length ≤ e.2.length := hctxge e hemem
    omega
  · by_cases hvn : v = n
    · have := hpmin (q₁ ++ [v]) (hvn ▸ hpre0)
      simp at this
      omega
    · exact absurd (hvisexp v hvV hvctx hvn w' hnbr) hout

/-- Specification of one neighbor pass of the BFS front entry `(n, p)`: either a
neighbor equals `end` and the completed path `p ++ [end]` is returned — valid and
of globally minimal length — or the pass finishes having visited every processed
neighbor, preserving all queue/visited invariants (`R` is the remaining queue). -/
theorem processNeighbors_spec (g : List (String × String)) (s endv : String)
    (n : String) (p : List String) (R : List (String × List String))
    (hpvalid : IsPathFrom g p s n)
    (hpmin : ∀ q, IsPathFrom g q s n → p.length ≤ q.length) :
    ∀ (ns : List String) (vis : List String) (acc : List (String × List String)),
      (∀ u ∈ ns, u ∈ neighbors g n) →
      s ∈ vis → endv ∉ vis → vis.Nodup →
      (∀ v ∈ vis, v ∈ bfsUniverse g s) →
      (∀ v ∈ vis, v ∉ (R ++ acc).map (·.1) → v ≠ n →
        ∀ u ∈ neighbors g v, u ∈ vis) →
      (∀ e ∈ R ++ acc, IsPathFrom g e.2 s e.1
        ∧ (∀ q, IsPathFrom g q s e.1 → e.2.length ≤ q.length)
        ∧ p.length ≤ e.2.length ∧ e.2.length ≤ p.length + 1) →
      (∀ e ∈ acc, e.2.length = p.length + 1) →
      (match processNeighbors endv p ns vis acc with
       | Sum.inl res =>
          res = p ++ [endv] ∧ IsPathFrom g res s endv
            ∧ ∀ q, IsPathFrom g q s endv → p.length + 1 ≤ q.length
       | Sum.inr (vis2, acc2) =>
          (∀ v ∈ vis, v ∈ vis2) ∧ s ∈ vis2 ∧ endv ∉ vis2 ∧ vis2.Nodup
            ∧ (∀ v ∈ vis2, v ∈ bfsUniverse g s)
            ∧ (∀ u ∈ ns, u ∈ vis2)
            ∧ (∀ v ∈ vis2, v ∉ (R ++ acc2).map (·.1) → v ≠ n →
                ∀ u ∈ neighbors g v, u ∈ vis2)
            ∧ (∀ e ∈ R ++ acc2, IsPathFrom g e.2 s e.1
                ∧ (∀ q, IsPathFrom g q s e.1 → e.2.length ≤ q.length)
                ∧ p.length ≤ e.2.length ∧ e.2.length ≤ p.length + 1)
            ∧ (∀ e ∈ acc2, e.2.length = p.length + 1)
            ∧ acc2.length + vis.length = acc.length + vis2.length) := by
  intro ns
  induction ns with
  | nil =>
    intro vis acc _ hs hendv hnd huniv hexp hctx hacclen
    simp only [processNeighbors]
    exact ⟨fun v hv => hv, hs, hendv, hnd, huniv, by simp, hexp, hctx, hacclen,
      by trivial⟩
  | cons u ns ih =>
    intro vis acc hns hs hendv hnd huniv hexp hctx hacclen
    simp only [processNeighbors]
    by_cases hu : (u == endv) = true
    · rw [if_pos hu]
      have hue : u = endv := beq_iff_eq.mp hu
      subst hue
      refine ⟨rfl, hpvalid.append_neighbor (hns u (List.mem_cons_self u ns)), ?_⟩
      have hmin := bfs_fresh_lower_bound g s (R ++ acc) vis n p u hpmin
        (fun e he => (hctx e he).2.1) (fun e he => (hctx e he).2.2.1)
        hexp hs hendv
      exact hmin
    · rw [if_neg hu]
      have hune : u ≠ endv := fun hc => hu (beq_iff_eq.mpr hc)
      by_cases huv : u ∈ vis
      · rw [if_pos huv]
        have hres := ih vis acc (fun x hx => hns x (List.mem_cons_of_mem u hx))
          hs hendv hnd huniv hexp hctx hacclen
        cases hrec : processNeighbors endv p ns vis acc with
        | inl res =>
          rw [hrec] at hres
          exact hres
        | inr pr =>
          obtain ⟨vis2, acc2⟩ := pr
          rw [hrec] at hres
          obtain ⟨m1, m2, m3, m4, m5, m6, m7, m8, m9, m10⟩ := hres
          refine ⟨m1, m2, m3, m4, m5, ?_, m7, m8, m9, m10⟩
          intro x hx
          rcases List.mem_cons.mp hx with hx | hx
          · exact m1 x (hx ▸ huv)
          · exact m6 x hx
      · rw [if_neg huv]
        have humem : u ∈ neighbors g n := hns u (List.mem_cons_self u ns)
        have hufresh : ∀ q, IsPathFrom g q s u → p.length + 1 ≤ q.length :=
          bfs_fresh_lower_bound g s (R ++ acc) vis n p u hpmin
            (fun e he => (hctx e he).2.1) (fun e he => (hctx e he).2.2.1)
            hexp hs huv
        have hres := ih (u :: vis) (acc ++ [(u, p ++ [u])])
          (fun x hx => hns x (List.mem_cons_of_mem u hx))
          (List.mem_cons_of_mem u hs)
          (by
            intro hc
            rcases List.mem_cons.mp hc with hc | hc
            · exact hune hc.symm
            · exact hendv hc)
          (List.nodup_cons.mpr ⟨huv, hnd⟩)
          (by
            intro v hv
            rcases List.mem_cons.mp hv with hv | hv
            · exact hv ▸ neighbors_subset_universe g s n u humem
            · exact huniv v hv)
          (by
            intro v hv hvnodes hvn u' hu'
            have hv2 : v ∈ vis := by
              rcases List.mem_cons.mp hv with hv | hv
              · exfalso
                apply hvnodes
                rw [hv]
                simp [List.map_append]
              · exact hv
            refine List.mem_cons_of_mem u (hexp v hv2 ?_ hvn u' hu')
            intro hc
            apply hvnodes
            simp only [List.map_append, List.mem_append] at hc ⊢
            rcases hc with hc | hc
            · exact Or.inl hc
            · exact Or.inr (Or.inl hc))
          (by
            intro e he
            rw [← List.append_assoc] at he
            rcases List.mem_append.mp he with he | he
            · exact hctx e he
            · rw [List.mem_singleton.mp he]
              refine ⟨hpvalid.append_neighbor humem, ?_, by simp, by simp⟩
              intro q hq
              have := hufresh q hq
              simpa using this)
          (by
            intro e he
            rcases List.mem_append.mp he with he | he
            · exact hacclen e he
            · rw [List.mem_singleton.mp he]
              simp)
        cases hrec : processNeighbors endv p ns (u :: vis) (acc ++ [(u, p ++ [u])]) with
        | inl res =>
          rw [hrec] at hres
          exact hres
        | inr pr =>
          obtain ⟨vis2, acc2⟩ := pr
          rw [hrec] at hres
          obtain ⟨m1, m2, m3, m4, m5, m6, m7, m8, m9, m10⟩ := hres
          refine ⟨fun v hv => m1 v (List.mem_cons_of_mem u hv), m2, m3, m4, m5,
            ?_, m7, m8, m9, ?_⟩
          · intro x hx
            rcases List.mem_cons.mp hx with hx | hx
            · exact m1 x (hx ▸ List.mem_cons_self u vis)
            · exact m6 x hx
          · simp only [List.length_append, List.length_cons, List.length_nil,
              List.length_singleton] at m10 ⊢
            omega

/-- The BFS loop invariant: every queue entry carries a valid path of globally
minimal length to its node; queue path lengths are sorted and within 1 of each
other; every visited node no longer in the queue has been fully expanded (all its
neighbors are visited); `start` is visited, `end` never is, and the visited list
is duplicate-free and inside the reachable universe. -/
def BfsInv (g : List (String × String)) (s endv : String)
    (queue : List (String × List String)) (vis : List String) : Prop :=
  (∀ e ∈ queue, IsPathFrom g e.2 s e.1
      ∧ ∀ q, IsPathFrom g q s e.1 → e.2.length ≤ q.length)
  ∧ (queue.map fun e => e.2.length).Pairwise (· ≤ ·)
  ∧ (∀ e1 ∈ queue, ∀ e2 ∈ queue, e1.2.length ≤ e2.2.length + 1)
  ∧ (∀ v ∈ vis, v ∉ queue.map (·.1) → ∀ u ∈ neighbors g v, u ∈ vis)
  ∧ s ∈ vis ∧ endv ∉ vis ∧ vis.Nodup ∧ ∀ v ∈ vis, v ∈ bfsUniverse g s

/-- With an empty queue the invariant rules out any path from `start` to `end`:
every vertex sequence out of the visited set would have to leave through an
expanded vertex. -/
theorem bfs_no_path_of_empty_queue (g : List (String × String)) (s endv : String)
    (vis : List String) (hInv : BfsInv g s endv [] vis) :
    ¬ ∃ q, IsPathFrom g q s endv := by
  rintro ⟨q, hq⟩
  obtain ⟨_, _, _, hexp, hs, hendv, _, _⟩ := hInv
  have hwq : endv ∈ q := by
    have hlast := hq.2.2.1
    rcases List.mem_getLast?_eq_getLast (l := q) (by rw [hlast]; rfl) with ⟨hq0, hxl⟩
    rw [hxl]
    exact List.getLast_mem hq0
  rcases exit_split vis q
    (by
      intro h hh
      rw [hq.2.1, Option.mem_def, Option.some.injEq] at hh
      subst hh
      exact hs)
    ⟨endv, hwq, hendv⟩ with ⟨q₁, v, w, q₂, heq, hin, hout⟩
  obtain ⟨_, hnbr, _⟩ := path_split_facts hq heq
  exact hout (hexp v (hin v (by simp)) (by simp) w hnbr)

/-- One unfolding of the BFS loop at a non-empty queue. -/
theorem bfsLoop_succ_cons (g : List (String × String)) (endv : String)
    (fuel : Nat) (n : String) (p : List String)
    (rest : List (String × List String)) (vis : List String) :
    bfsLoop g endv (fuel + 1) ((n, p) :: rest) vis
      = match processNeighbors endv p (neighbors g n) vis [] with
        | Sum.inl found => some found
        | Sum.inr (vis2, adds) => bfsLoop g endv fuel (rest ++ adds) vis2 := rfl

/-- A duplicate-free list included in `u` is no longer than `u.dedup`. -/
theorem nodup_subset_length_le {α : Type} [DecidableEq α] (l u : List α)
    (hnd : l.Nodup) (hsub : ∀ x ∈ l, x ∈ u) : l.length ≤ u.dedup.length := by
  have h1 : l.toFinset.card = l.length := List.toFinset_card_of_nodup hnd
  have h2 : u.toFinset.card = u.dedup.length := List.card_toFinset u
  have h3 : l.toFinset ⊆ u.toFinset := by
    intro x hx
    rw [List.mem_toFinset] at hx ⊢
    exact hsub x hx
  have := Finset.card_le_card h3
  omega

/-- Soundness and completeness of the BFS loop under the invariant: any returned
path is a valid, globally shortest `start → end` path, and with enough fuel a
path is returned whenever one exists. -/
theorem bfsLoop_correct (g : List (String × String)) (s endv : String) :
    ∀ (fuel : Nat) (queue : List (String × List String)) (vis : List String),
      BfsInv g s endv queue vis →
      (∀ res, bfsLoop g endv fuel queue vis = some res →
        IsPathFrom g res s endv ∧ ∀ q, IsPathFrom g q s endv → res.length ≤ q.length)
      ∧ ((bfsUniverse g s).dedup.length + queue.length ≤ fuel + vis.length →
          (∃ q, IsPathFrom g q s endv) →
          ∃ res, bfsLoop g endv fuel queue vis = some res) := by
  intro fuel
  induction fuel with
  | zero =>
    intro queue vis hInv
    constructor
    · intro res hres
      simp [bfsLoop] at hres
    · intro hfuel hpath
      cases queue with
      | nil => exact absurd hpath (bfs_no_path_of_empty_queue g s endv vis hInv)
      | cons hd rest =>
        exfalso
        obtain ⟨_, _, _, _, _, _, hnd, huniv⟩ := hInv
        have hle := nodup_subset_length_le vis (bfsUniverse g s) hnd huniv
        simp only [List.length_cons, Nat.zero_add] at hfuel
        omega
  | succ fuel ih =>
    intro queue vis hInv
    cases queue with
    | nil =>
      constructor
      · intro res hres
        simp [bfsLoop] at hres
      · intro _ hpath
        exact absurd hpath (bfs_no_path_of_empty_queue g s endv vis hInv)
    | cons hd rest =>
      obtain ⟨n, p⟩ := hd
      obtain ⟨hq, hsortp, hinterval, hexp, hs, hendv, hnd, huniv⟩ := hInv
      have hhead := hq (n, p) (List.mem_cons_self _ _)
      have hrestge : ∀ e ∈ rest, p.length ≤ e.2.length := by
        intro e he
        have hpw := (List.pairwise_cons.mp (by
          simpa using hsortp : (p.length :: rest.map fun e => e.2.length).Pairwise
            (· ≤ ·))).1
        exact hpw _ (List.mem_map_of_mem _ he)
      have hspec := processNeighbors_spec g s endv n p rest hhead.1 hhead.2
        (neighbors g n) vis [] (fun u hu => hu) hs hendv hnd huniv
        (by
          intro v hv hvnodes hvn u hu
          refine hexp v hv ?_ u hu
          intro hc
          simp only [List.map_cons, List.mem_cons] at hc
          rcases hc with hc | hc
          · exact hvn hc
          · exact hvnodes (by simpa using hc))
        (by
          intro e he
          rw [List.append_nil] at he
          refine ⟨(hq e (List.mem_cons_of_mem _ he)).1,
            (hq e (List.mem_cons_of_mem _ he)).2, hrestge e he, ?_⟩
          exact hinterval e (List.mem_cons_of_mem _ he) (n, p)
            (List.mem_cons_self _ _))
        (by intro e he; simp at he)
      rw [bfsLoop_succ_cons]
      cases hPN : processNeighbors endv p (neighbors g n) vis [] with
      | inl found =>
        rw [hPN] at hspec
        obtain ⟨hfeq, hfvalid, hfmin⟩ := hspec
        constructor
        · intro res hres
          have hfr : found = res := Option.some.inj hres
          subst hfr
          refine ⟨hfvalid, ?_⟩
          intro q hqpath
          have := hfmin q hqpath
          rw [hfeq]
          simp only [List.length_append, List.length_singleton]
          omega
        · intro _ _
          exact ⟨found, rfl⟩
      | inr pr =>
        obtain ⟨vis2, adds⟩ := pr
        rw [hPN] at hspec
        obtain ⟨m1, m2, m3, m4, m5, m6, m7, m8, m9, m10⟩ := hspec
        have hInv2 : BfsInv g s endv (rest ++ adds) vis2 := by
          refine ⟨fun e he => ⟨(m8 e he).1, (m8 e he).2.1⟩, ?_, ?_, ?_, m2, m3, m4, m5⟩
          · rw [List.map_append]
            rw [List.pairwise_append]
            refine ⟨?_, ?_, ?_⟩
            · exact (List.pairwise_cons.mp (by
                simpa using hsortp : (p.length :: rest.map fun e => e.2.length).Pairwise
                  (· ≤ ·))).2
            · refine List.pairwise_of_forall_mem_list ?_
              intro a ha b hb
              rcases List.mem_map.mp ha with ⟨e1, he1, rfl⟩
              rcases List.mem_map.mp hb with ⟨e2, he2, rfl⟩
              rw [m9 e1 he1, m9 e2 he2]
            · intro a ha b hb
              rcases List.mem_map.mp ha with ⟨e1, he1, rfl⟩
              rcases List.mem_map.mp hb with ⟨e2, he2, rfl⟩
              have h1 := (m8 e1 (List.mem_append_left _ he1)).2.2.2
              rw [m9 e2 he2]
              omega
          · intro e1 he1 e2 he2
            have h1 := (m8 e1 he1).2.2.2
            have h2 := (m8 e2 he2).2.2.1
            omega
          · intro v hv hvnodes u hu
            by_cases hvn : v = n
            · subst hvn
              exact m6 u hu
            · exact m7 v hv hvnodes hvn u hu
        have hrec := ih (rest ++ adds) vis2 hInv2
        constructor
        · exact hrec.1
        · intro hfuel hpath
          refine hrec.2 ?_ hpath
          have hv2 : vis2.length = vis.length + adds.length := by
            simp only [List.length_nil] at m10
            omega
          simp only [List.length_append, List.length_cons] at hfuel ⊢
          omega

/-- C7: `find_shortest_path` returns `[start]` when `start = end`; any returned
path is a valid `start → end` walk of globally minimal length (minimum edge
count, since edge count is node count minus one); and it returns `none` exactly
when `end` is unreachable from `start` — an absent value, never an error. -/
theorem c7_shortest_path_bfs (g : List (String × String)) (s endv : String) :
    (s = endv → find_shortest_path g s endv = some [s])
    ∧ (∀ p, find_shortest_path g s endv = some p →
        IsPathFrom g p s endv ∧ ∀ q, IsPathFrom g q s endv → p.length ≤ q.length)
    ∧ (find_shortest_path g s endv = none ↔ ¬ ∃ q, IsPathFrom g q s endv) := by
  by_cases hse : s = endv
  · subst hse
    unfold find_shortest_path
    rw [if_pos (beq_iff_eq.mpr rfl)]
    refine ⟨fun _ => rfl, ?_, ?_⟩
    · intro p hp
      have hps : [s] = p := Option.some.inj hp
      subst hps
      refine ⟨⟨by simp, rfl, rfl, List.chain'_singleton s⟩, ?_⟩
      intro q hqpath
      have := hqpath.one_le_length
      simpa using this
    · constructor
      · intro h
        exact Option.noConfusion h
      · intro h
        exact absurd ⟨[s], by simp, rfl, rfl, List.chain'_singleton s⟩ h
  · unfold find_shortest_path
    rw [if_neg (fun hc => hse (beq_iff_eq.mp hc))]
    have hInv0 : BfsInv g s endv [(s, [s])] [s] := by
      refine ⟨?_, ?_, ?_, ?_, by simp, ?_, List.nodup_singleton s, ?_⟩
      · intro e he
        rw [List.mem_singleton.mp he]
        refine ⟨⟨by simp, rfl, rfl, List.chain'_singleton s⟩, ?_⟩
        intro q hqpath
        have := hqpath.one_le_length
        simpa using this
      · simp
      · intro e1 he1 e2 he2
        rw [List.mem_singleton.mp he1, List.mem_singleton.mp he2]
        simp
      · intro v hv hvnodes
        exfalso
        exact hvnodes (by simpa using hv)
      · intro hc
        exact hse (List.mem_singleton.mp hc).symm
      · intro v hv
        rw [List.mem_singleton.mp hv]
        exact List.mem_cons_self _ _
    have hcorrect := bfsLoop_correct g s endv (bfsFuel g) [(s, [s])] [s] hInv0
    refine ⟨fun hc => absurd hc hse, hcorrect.1, ?_⟩
    have hfuelok : (bfsUniverse g s).dedup.length + [(s, [s])].length
        ≤ bfsFuel g + [s].length := by
      have h1 : (bfsUniverse g s).dedup.length ≤ (bfsUniverse g s).length :=
        List.Sublist.length_le (List.dedup_sublist _)
      have h2 : (bfsUniverse g s).length = 1 + g.length := by
        simp [bfsUniverse, Nat.add_comm]
      simp only [List.length_singleton, bfsFuel]
      omega
    constructor
    · intro hnone hpath
      rcases hcorrect.2 hfuelok hpath with ⟨res, hres⟩
      rw [hnone] at hres
      exact Option.noConfusion hres
    · intro hnopath
      cases hres : bfsLoop g endv (bfsFuel g) [(s, [s])] [s] with
      | none => rfl
      | some res => exact absurd ⟨res, (hcorrect.1 res hres).1⟩ hnopath

/-- C7 witness: on the chain `A → B → C → D` the search returns `[A, B, C, D]`
(four nodes, three edges), and the theorem certifies it as a valid shortest
path. -/
theorem c7_witness :
    find_shortest_path [("A", "B"), ("B", "C"), ("C", "D")] "A" "D"
        = some ["A", "B", "C", "D"]
    ∧ IsPathFrom [("A", "B"), ("B", "C"), ("C", "D")] ["A", "B", "C", "D"] "A" "D"
    ∧ (["A", "B", "C", "D"] : List String).length - 1 = 3 := by
  refine ⟨by rfl, ?_, by rfl⟩
  exact ((c7_shortest_path_bfs [("A", "B"), ("B", "C"), ("C", "D")] "A" "D").2.1
    ["A", "B", "C", "D"] (by rfl)).1

/-! ### C4: the community-detection dispatch (`detect_communities`)

The clustering numerics live in external libraries (`networkx.community`,
`sklearn`); the spec declares them out of scope and only their invocation /
fallback *policy* is claimed.  Each library call is therefore a parameter (an
oracle) that may return a value or raise, and the dispatch, the `try/except`
structure, the graph-emptiness test (`if not self.graph:` — Python truthiness of
a `networkx` graph is its node count) and the connected-components fallback are
embedded from the source.  Floats are modelled as rationals: only the constants
`0` and `-1` and an opaque comparison are involved. -/

/-- One community dict `{'id': i, 'members': ..., 'size': ...}` (the
louvain-only `modularity_contribution: 0` key is not modelled). -/
structure Community where
  id : Nat
  members : List String
  size : Nat
  deriving DecidableEq, Repr

/-- The result dict of `detect_communities*`; `num_communities` is absent on the
`none`/`error` fallback paths. -/
structure CDResult where
  method : String
  communities : List Community
  modularity : Rat
  node_communities : List (String × Nat)
  num_communities : Option Nat := none
  deriving DecidableEq, Repr

/-- The external library calls, as oracles that may raise. -/
structure CDOracles where
  louvain : NXGraph → Except String (List (List String))
  modularity : NXGraph → List (List String) → Except String Rat
  girvanNewman : NXGraph → Except String (List (List (List String)))
  sklearnAvailable : Bool
  spectral : NXGraph → Except String (List (List String))

/-- The community list built by the `for i, community in enumerate(...)` loops. -/
def communitiesOf (parts : List (List String)) : List Community :=
  parts.enum.map fun p => { id := p.1, members := p.2, size := p.2.length }

/-- The `node_to_community` assignments, in loop order. -/
def nodeCommunitiesOf (parts : List (List String)) : List (String × Nat) :=
  parts.enum.flatMap fun p => p.2.map fun v => (v, p.1)

/-- The distinct node set of the graph (first-occurrence order), `G.nodes()`. -/
def nxNodes (G : NXGraph) : List String := dedupBy (fun x => x.data) G.nodeIds

/-- Undirected neighbors of `v` in the NetworkX graph. -/
def undirectedNeighbors (G : NXGraph) (v : String) : List String :=
  (G.edges.filter fun p => p.1 == v).map (·.2)
    ++ (G.edges.filter fun p => p.2 == v).map (·.1)

/-- One round of closure expansion: add every neighbor of the set not yet in it. -/
def closureStep (G : NXGraph) (acc : List String) : List String :=
  acc.foldl
    (fun a x =>
      (undirectedNeighbors G x).foldl
        (fun a2 y => if y ∈ a2 then a2 else a2 ++ [y]) a)
    acc

/-- Fueled fixpoint of `closureStep`: the connected component of the seed. -/
def closureFrom (G : NXGraph) : Nat → List String → List String
  | 0, acc => acc
  | f + 1, acc =>
    let acc2 := closureStep G acc
    if acc2 = acc then acc else closureFrom G f acc2

/-- `nx.connected_components`: one component (as a node list) per unseen node, in
node order.  (NetworkX yields each component as a set; the member order inside a
component is not observable through any claimed property.) -/
def componentsOf (G : NXGraph) : List (List String) :=
  ((nxNodes G).foldl
    (fun st v =>
      if v ∈ st.1 then st
      else
        let comp := closureFrom G (nxNodes G).length [v]
        (st.1 ++ comp, st.2 ++ [comp]))
    ([], [])).2

/-- `_fallback_community_detection`: `method: none` on an empty graph, else a
connected-components partition with modularity computed only when at least two
partitions exist (0 otherwise); a raising modularity call yields the
`method: error` dict — never an exception. -/
def fallbackCD (oc : CDOracles) (G : NXGraph) : CDResult :=
  if G.nodeIds.isEmpty then
    { method := "none", communities := [], modularity := 0, node_communities := [] }
  else
    let comps := componentsOf G
    match (if comps.length > 1 then oc.modularity G comps else Except.ok 0) with
    | Except.ok m =>
      { method := "connected_components"
        communities := communitiesOf comps
        modularity := m
        node_communities := nodeCommunitiesOf comps
        num_communities := some comps.length }
    | Except.error _ =>
      { method := "error", communities := [], modularity := 0, node_communities := [] }

/-- `detect_communities_louvain`: raises `ValueError` when the graph is falsy
(which includes an *empty but initialized* graph), else catches every internal
failure into the fallback. -/
def detectCommunitiesLouvain (oc : CDOracles) (G : NXGraph) :
    Except String CDResult :=
  if G.nodeIds.isEmpty then
    Except.error "Graph not initialized. Call build_networkx_graph first."
  else
    Except.ok <|
      match oc.louvain G with
      | Except.error _ => fallbackCD oc G
      | Except.ok comms =>
        match oc.modularity G comms with
        | Except.error _ => fallbackCD oc G
        | Except.ok m =>
          { method := "louvain"
            communities := communitiesOf comms
            modularity := m
            node_communities := nodeCommunitiesOf comms
            num_communities := some comms.length }

/-- `detect_communities_leiden`: after its own graph check, delegates to Louvain
inside a `try` whose handler falls back to connected components. -/
def detectCommunitiesLeiden (oc : CDOracles) (G : NXGraph) :
    Except String CDResult :=
  if G.nodeIds.isEmpty then Except.error "Graph not initialized"
  else
    match detectCommunitiesLouvain oc G with
    | Except.ok r => Except.ok r
    | Except.error _ => Except.ok (fallbackCD oc G)

/-- The best-partition selection loop of `detect_communities_walktrap`: stop at
the first partition larger than `n // 10`, keep the highest-modularity one seen;
a raising modularity call aborts the whole `try` block. -/
def walktrapSelect (modOr : List (List String) → Except String Rat) (bound : Nat) :
    List (List (List String)) → Option (List (List String)) → Rat →
      Except String (Option (List (List String)) × Rat)
  | [], best, bm => Except.ok (best, bm)
  | part :: restp, best, bm =>
    if part.length > bound then Except.ok (best, bm)
    else
      match modOr part with
      | Except.error e => Except.error e
      | Except.ok m =>
        if m > bm then walktrapSelect modOr bound restp (some part) m
        else walktrapSelect modOr bound restp best bm

/-- `detect_communities_walktrap`: any failure of the girvan-newman iteration or
of a modularity call — and an empty best partition — falls back to connected
components (not to Louvain). -/
def detectCommunitiesWalktrap (oc : CDOracles) (G : NXGraph) :
    Except String CDResult :=
  if G.nodeIds.isEmpty then Except.error "Graph not initialized"
  else
    Except.ok <|
      match
        (match oc.girvanNewman G with
         | Except.error e => Except.error e
         | Except.ok parts =>
           walktrapSelect (oc.modularity G) ((nxNodes G).length / 10) parts
             none (-1)) with
      | Except.error _ => fallbackCD oc G
      | Except.ok (none, _) => fallbackCD oc G
      | Except.ok (some bp, bm) =>
        { method := "walktrap"
          communities := communitiesOf bp
          modularity := bm
          node_communities := nodeCommunitiesOf bp
          num_communities := some bp.length }

/-- `detect_communities_spectral`: a missing `sklearn` falls back to Louvain
(outside any `try`); any other failure falls back to connected components. -/
def detectCommunitiesSpectral (oc : CDOracles) (G : NXGraph) :
    Except String CDResult :=
  if G.nodeIds.isEmpty then Except.error "Graph not initialized"
  else if !oc.sklearnAvailable then detectCommunitiesLouvain oc G
  else
    Except.ok <|
      match oc.spectral G with
      | Except.error _ => fallbackCD oc G
      | Except.ok comms =>
        match oc.modularity G comms with
        | Except.error _ => fallbackCD oc G
        | Except.ok m =>
          { method := "spectral"
            communities := communitiesOf comms
            modularity := m
            node_communities := nodeCommunitiesOf comms
            num_communities := some comms.length }

/-- The `method_map` keys. -/
def knownMethods : List String := ["louvain", "leiden", "walktrap", "spectral"]

/-- `detect_communities(nodes, edges, method)`: build the graph, replace an
unknown method name by `'louvain'`, dispatch. -/
def detectCommunities (oc : CDOracles) (nodes : List PyNode) (edges : List PyEdge)
    (method : String) : Except String CDResult :=
  let G := buildNXGraph nodes edges
  let m := if method ∈ knownMethods then method else "louvain"
  if m = "louvain" then detectCommunitiesLouvain oc G
  else if m = "leiden" then detectCommunitiesLeiden oc G
  else if m = "walktrap" then detectCommunitiesWalktrap oc G
  else detectCommunitiesSpectral oc G

theorem detectCommunitiesLouvain_ok (oc : CDOracles) (G : NXGraph)
    (hG : G.nodeIds.isEmpty = false) :
    ∃ r, detectCommunitiesLouvain oc G = Except.ok r := by
  unfold detectCommunitiesLouvain
  rw [if_neg (by simp [hG])]
  exact ⟨_, rfl⟩

theorem detectCommunitiesLeiden_ok (oc : CDOracles) (G : NXGraph)
    (hG : G.nodeIds.isEmpty = false) :
    ∃ r, detectCommunitiesLeiden oc G = Except.ok r := by
  unfold detectCommunitiesLeiden
  rw [if_neg (by simp [hG])]
  rcases detectCommunitiesLouvain_ok oc G hG with ⟨r, hr⟩
  rw [hr]
  exact ⟨r, rfl⟩

theorem detectCommunitiesWalktrap_ok (oc : CDOracles) (G : NXGraph)
    (hG : G.nodeIds.isEmpty = false) :
    ∃ r, detectCommunitiesWalktrap oc G = Except.ok r := by
  unfold detectCommunitiesWalktrap
  rw [if_neg (by simp [hG])]
  exact ⟨_, rfl⟩

theorem detectCommunitiesSpectral_ok (oc : CDOracles) (G : NXGraph)
    (hG : G.nodeIds.isEmpty = false) :
    ∃ r, detectCommunitiesSpectral oc G = Except.ok r := by
  unfold detectCommunitiesSpectral
  rw [if_neg (by simp [hG])]
  by_cases hsk : oc.sklearnAvailable = true
  · rw [if_neg (by simp [hsk])]
    exact ⟨_, rfl⟩
  · rw [if_pos (by simp [Bool.eq_false_iff.mpr hsk])]
    exact detectCommunitiesLouvain_ok oc G hG

/-- C4 (amended): for a non-empty node list the community-detection call never
propagates an exception: every strategy (and any unrecognized name, which
dispatches to Louvain) returns a result.  The fallback ladder is per-method: an
internal Louvain failure falls back to the connected-components partition, whose
modularity is computed only when at least two partitions exist (0 otherwise);
leiden unconditionally delegates to Louvain; an internal walktrap
(girvan-newman) failure falls back to connected components directly, not to
Louvain; spectral falls back to Louvain exactly when sklearn is unavailable and
to connected components on any other internal failure.  On an empty node list
the call raises instead, see the counterexample. -/
theorem c4_fallback_policy (oc : CDOracles) (nodes : List PyNode)
    (edges : List PyEdge) (method : String) (hnodes : nodes ≠ []) :
    (∃ r, detectCommunities oc nodes edges method = Except.ok r)
    ∧ (method ∉ knownMethods →
        detectCommunities oc nodes edges method
          = detectCommunities oc nodes edges "louvain")
    ∧ (∀ msg, oc.louvain (buildNXGraph nodes edges) = Except.error msg →
        detectCommunities oc nodes edges "louvain"
          = Except.ok (fallbackCD oc (buildNXGraph nodes edges)))
    ∧ (∀ G : NXGraph, G.nodeIds.isEmpty = false → (componentsOf G).length ≤ 1 →
        (fallbackCD oc G).modularity = 0
          ∧ (fallbackCD oc G).method = "connected_components")
    ∧ (detectCommunities oc nodes edges "leiden"
        = detectCommunities oc nodes edges "louvain")
    ∧ (∀ msg, oc.girvanNewman (buildNXGraph nodes edges) = Except.error msg →
        detectCommunities oc nodes edges "walktrap"
          = Except.ok (fallbackCD oc (buildNXGraph nodes edges)))
    ∧ (oc.sklearnAvailable = false →
        detectCommunities oc nodes edges "spectral"
          = detectCommunities oc nodes edges "louvain")
    ∧ (∀ msg, oc.sklearnAvailable = true →
        oc.spectral (buildNXGraph nodes edges) = Except.error msg →
        detectCommunities oc nodes edges "spectral"
          = Except.ok (fallbackCD oc (buildNXGraph nodes edges))) := by
  have hG : (buildNXGraph nodes edges).nodeIds.isEmpty = false := by
    unfold buildNXGraph
    cases nodes with
    | nil => exact absurd rfl hnodes
    | cons a rest => rfl
  refine ⟨?_, ?_, ?_, ?_, ?_, ?_, ?_, ?_⟩
  · unfold detectCommunities
    dsimp only
    split
    · split
      · exact detectCommunitiesLouvain_ok oc _ hG
      · split
        · exact detectCommunitiesLeiden_ok oc _ hG
        · split
          · exact detectCommunitiesWalktrap_ok oc _ hG
          · exact detectCommunitiesSpectral_ok oc _ hG
    · exact detectCommunitiesLouvain_ok oc _ hG
  · intro hm
    unfold detectCommunities
    dsimp only
    rw [if_neg hm, if_pos (show "louvain" ∈ knownMethods by decide)]
  · intro msg hmsg
    unfold detectCommunities
    dsimp only
    rw [if_pos (show "louvain" ∈ knownMethods by decide), if_pos rfl]
    unfold detectCommunitiesLouvain
    rw [if_neg (by simp [hG]), hmsg]
  · intro G hGne hcomps
    unfold fallbackCD
    rw [if_neg (by simp [hGne])]
    dsimp only
    rw [if_neg (by omega)]
    exact ⟨rfl, rfl⟩
  · obtain ⟨r, hr⟩ := detectCommunitiesLouvain_ok oc (buildNXGraph nodes edges) hG
    show detectCommunitiesLeiden oc (buildNXGraph nodes edges)
      = detectCommunitiesLouvain oc (buildNXGraph nodes edges)
    unfold detectCommunitiesLeiden
    rw [if_neg (by simp [hG]), hr]
  · intro msg hmsg
    show detectCommunitiesWalktrap oc (buildNXGraph nodes edges)
      = Except.ok (fallbackCD oc (buildNXGraph nodes edges))
    unfold detectCommunitiesWalktrap
    rw [if_neg (by simp [hG]), hmsg]
  · intro hsk
    show detectCommunitiesSpectral oc (buildNXGraph nodes edges)
      = detectCommunitiesLouvain oc (buildNXGraph nodes edges)
    unfold detectCommunitiesSpectral
    rw [if_neg (by simp [hG]), if_pos (by simp [hsk])]
  · intro msg hsk hmsg
    show detectCommunitiesSpectral oc (buildNXGraph nodes edges)
      = Except.ok (fallbackCD oc (buildNXGraph nodes edges))
    unfold detectCommunitiesSpectral
    rw [if_neg (by simp [hG]), if_neg (by simp [hsk]), hmsg]

/-- Oracles whose library calls all succeed trivially. -/
def trivialCDOracles : CDOracles :=
  { louvain := fun _ => Except.ok []
    modularity := fun _ _ => Except.ok 0
    girvanNewman := fun _ => Except.ok []
    sklearnAvailable := false
    spectral := fun _ => Except.ok [] }

/-- Oracles where the girvan-newman iteration raises but Louvain succeeds with a
single-community partition. -/
def walktrapFailOracles : CDOracles :=
  { louvain := fun _ => Except.ok [["A"]]
    modularity := fun _ _ => Except.ok 0
    girvanNewman := fun _ => Except.error "girvan-newman failed"
    sklearnAvailable := false
    spectral := fun _ => Except.ok [] }

/-- C4 counterexample: (1)–(2) on an empty node list `detect_communities`
propagates `ValueError` to the caller (the long Louvain message, the short one
from the other methods) — the graph *was* initialized (empty), but an empty
NetworkX graph is falsy — even though every library oracle succeeds; (3)–(4) an
internal walktrap failure does not fall back to the primary (Louvain) strategy:
with girvan-newman raising but Louvain fine, walktrap returns the
connected-components result while the same input under Louvain returns a
`louvain` result. -/
theorem c4_counterexample :
    detectCommunities trivialCDOracles [] [] "louvain"
      = Except.error "Graph not initialized. Call build_networkx_graph first."
    ∧ detectCommunities trivialCDOracles [] [] "walktrap"
        = Except.error "Graph not initialized"
    ∧ (detectCommunities walktrapFailOracles [{ id := "A" }] []
        "walktrap").toOption.map (·.method) = some "connected_components"
    ∧ (detectCommunities walktrapFailOracles [{ id := "A" }] []
        "louvain").toOption.map (·.method) = some "louvain" := by
  refine ⟨rfl, rfl, by decide, by decide⟩

/-- C4 witness: a single-node graph with an unknown strategy name both returns a
result and dispatches identically to Louvain. -/
theorem c4_witness :
    (∃ r, detectCommunities trivialCDOracles [{ id := "A" }] [] "bogus"
      = Except.ok r)
    ∧ detectCommunities trivialCDOracles [{ id := "A" }] [] "bogus"
        = detectCommunities trivialCDOracles [{ id := "A" }] [] "louvain" :=
  ⟨(c4_fallback_policy trivialCDOracles [{ id := "A" }] [] "bogus"
      (by decide)).1,
   (c4_fallback_policy trivialCDOracles [{ id := "A" }] [] "bogus"
      (by decide)).2.1 (by decide)⟩

/-! ### C5: stressor-to-hypernode connections

String-level groundwork: the dedup keys are flat character lists, so distinguishing
connection kinds and recovering a connection's source from its key require suffix
and digit-run arguments on the concatenated strings. -/

theorem takeWhile_append_cons (p : Char → Bool) (xs : List Char) (y : Char)
    (ys : List Char) (hxs : ∀ x ∈ xs, p x = true) (hy : p y = false) :
    (xs ++ y :: ys).takeWhile p = xs := by
  induction xs with
  | nil => simp [List.takeWhile_cons, hy]
  | cons x xs ih =>
    have hx := hxs x (List.mem_cons_self x xs)
    simp only [List.cons_append, List.takeWhile_cons, hx, if_true]
    rw [ih (fun a ha => hxs a (List.mem_cons_of_mem x ha))]

/-- Two concatenations with right parts whose reversed `n`-prefixes differ are
distinct lists. -/
theorem append_ne_of_reverse_take_ne (a b t u : List Char) (n : Nat)
    (hn1 : n ≤ t.length) (hn2 : n ≤ u.length)
    (hne : t.reverse.take n ≠ u.reverse.take n) : a ++ t ≠ b ++ u := by
  intro h
  apply hne
  have hrev := congrArg List.reverse h
  rw [List.reverse_append, List.reverse_append] at hrev
  have htake := congrArg (List.take n) hrev
  rw [List.take_append_of_le_length (by simpa using hn1),
    List.take_append_of_le_length (by simpa using hn2)] at htake
  exact htake

/-- Reversing a stressor-connection dedup key, re-associated to expose the
reversed AOP key as the left factor. -/
theorem rev_sconn_key (src k : List Char) :
    (src ++ "->".data ++ ("stressor-hypernode-aop-".data ++ k)).reverse
      = k.reverse ++ ("stressor-hypernode-aop-".data.reverse
          ++ ("->".data.reverse ++ src.reverse)) := by
  rw [List.reverse_append, List.reverse_append, List.reverse_append,
    List.append_assoc]

/-- The reversed `stressor-hypernode-aop-` prefix starts with its trailing
dash. -/
theorem revPrefix_cons :
    "stressor-hypernode-aop-".data.reverse
      = '-' :: "stressor-hypernode-aop".data.reverse := rfl

/-- The reversed key's maximal digit run is exactly the reversed AOP key, since
the char before it is the prefix's `'-'`. -/
theorem rev_sconn_key_takeWhile (src k : List Char)
    (hk : ∀ c ∈ k, c.isDigit = true) :
    (k.reverse ++ ("stressor-hypernode-aop-".data.reverse
        ++ ("->".data.reverse ++ src.reverse))).takeWhile Char.isDigit
      = k.reverse := by
  rw [revPrefix_cons, List.cons_append]
  exact takeWhile_append_cons Char.isDigit k.reverse '-' _
    (fun x hx => hk x (List.mem_reverse.mp hx)) rfl

/-- Recovering source and AOP key from a `stressor-connection` dedup key: within
that connection kind the key determines the `(source, key)` pair, because the AOP
key is the maximal digit run before the reversed prefix. -/
theorem sconn_key_inj (src1 src2 k1 k2 : List Char)
    (h1 : ∀ c ∈ k1, c.isDigit = true) (h2 : ∀ c ∈ k2, c.isDigit = true)
    (heq : src1 ++ "->".data ++ ("stressor-hypernode-aop-".data ++ k1)
           = src2 ++ "->".data ++ ("stressor-hypernode-aop-".data ++ k2)) :
    src1 = src2 ∧ k1 = k2 := by
  have hrev := congrArg List.reverse heq
  rw [rev_sconn_key, rev_sconn_key] at hrev
  have t1 := rev_sconn_key_takeWhile src1 k1 h1
  have t2 := rev_sconn_key_takeWhile src2 k2 h2
  have hk : k1.reverse = k2.reverse := by rw [← t1, hrev, t2]
  have hk12 : k1 = k2 := by
    have := congrArg List.reverse hk
    simpa using this
  refine ⟨?_, hk12⟩
  rw [hk12] at hrev
  have hsrc := List.append_cancel_left
    (List.append_cancel_left (List.append_cancel_left hrev))
  have := congrArg List.reverse hsrc
  simpa using this

/-- The stressor grouping loop in closed form, mirroring `foldl_gStep_findGroup`:
the group of a non-`unknown` key holds exactly the stressors normalizing to it. -/
theorem foldl_sStep_findGroup (stressors : List PyNode) :
    ∀ (acc : List (String × List PyNode)) (k : String), k ≠ "unknown" →
      findGroup (stressors.foldl sStep acc) k
        = match findGroup acc k with
          | some vs => some (vs ++ stressors.filter fun s => stressorKeyOf s == k)
          | none =>
              if (stressors.filter fun s => stressorKeyOf s == k) = [] then none
              else some (stressors.filter fun s => stressorKeyOf s == k) := by
  induction stressors with
  | nil =>
    intro acc k _
    simp only [List.foldl_nil, List.filter_nil, List.append_nil]
    cases findGroup acc k <;> simp
  | cons s ss ih =>
    intro acc k hk
    simp only [List.foldl_cons]
    by_cases hU : stressorKeyOf s = "unknown"
    · have hstep : sStep acc s = acc := by simp [sStep, hU]
      have hfilt : (stressorKeyOf s == k) = false :=
        beq_false_of_ne (fun hc => hk (hU ▸ hc).symm)
      rw [hstep, ih acc k hk]
      simp [List.filter_cons, hfilt]
    · have hstep : sStep acc s = addToGroups acc (stressorKeyOf s) s := by
        simp [sStep, hU]
      rw [hstep, ih _ k hk]
      by_cases hT : stressorKeyOf s = k
      · have hfilt : (stressorKeyOf s == k) = true := beq_iff_eq.mpr hT
        rw [findGroup_addToGroups acc _ s k, if_pos hT.symm]
        simp only [List.filter_cons, hfilt, if_pos rfl]
        cases hacc : findGroup acc k with
        | some vs => simp [hT, hacc]
        | none => simp [hT, hacc]
      · have hfilt : (stressorKeyOf s == k) = false := beq_false_of_ne hT
        rw [findGroup_addToGroups acc _ s k, if_neg (fun hc => hT hc.symm)]
        simp [List.filter_cons, hfilt]

/-- `stressors_by_aop` in closed form: the group of a non-`unknown` key holds
exactly the stressors whose normalized key equals it, in input order. -/
theorem stressorGroupsOf_findGroup (stressors : List PyNode) (k : String)
    (hk : k ≠ "unknown") :
    findGroup (stressorGroupsOf stressors) k
      = if (stressors.filter fun s => stressorKeyOf s == k) = [] then none
        else some (stressors.filter fun s => stressorKeyOf s == k) := by
  unfold stressorGroupsOf
  rw [foldl_sStep_findGroup stressors [] k hk]
  rfl

theorem stressorGroupsOf_keys_nodup (stressors : List PyNode) :
    ((stressorGroupsOf stressors).map (·.1)).Nodup := by
  have haux : ∀ (ns : List PyNode) (acc : List (String × List PyNode)),
      (acc.map (·.1)).Nodup → ((ns.foldl sStep acc).map (·.1)).Nodup := by
    intro ns
    induction ns with
    | nil => intro acc h; exact h
    | cons s ss ih =>
      intro acc h
      simp only [List.foldl_cons]
      refine ih (sStep acc s) ?_
      by_cases hU : stressorKeyOf s = "unknown"
      · rw [show sStep acc s = acc from by simp [sStep, hU]]
        exact h
      · rw [show sStep acc s = addToGroups acc (stressorKeyOf s) s from by
          simp [sStep, hU]]
        exact addToGroups_keys_nodup acc _ s h
  exact haux stressors [] (by simp)

/-- Every key of `addToGroups gs k v` is a key of `gs` or `k` itself. -/
theorem addToGroups_mem_keys (gs : List (String × List β)) (k : String) (v : β)
    (p : String × List β) (hp : p ∈ addToGroups gs k v) :
    p.1 ∈ gs.map (·.1) ∨ p.1 = k := by
  have hmap : p.1 ∈ (addToGroups gs k v).map (·.1) := List.mem_map_of_mem _ hp
  rw [addToGroups_keys] at hmap
  by_cases hmem : k ∈ gs.map (·.1)
  · rw [if_pos hmem] at hmap
    exact Or.inl hmap
  · rw [if_neg hmem] at hmap
    rcases List.mem_append.mp hmap with h | h
    · exact Or.inl h
    · exact Or.inr (List.mem_singleton.mp h)

/-- No stressor group carries the skipped `'unknown'` key. -/
theorem stressorGroupsOf_keys_ne_unknown (stressors : List PyNode) :
    ∀ p ∈ stressorGroupsOf stressors, p.1 ≠ "unknown" := by
  have haux : ∀ (ns : List PyNode) (acc : List (String × List PyNode)),
      (∀ p ∈ acc, p.1 ≠ "unknown") →
      ∀ p ∈ ns.foldl sStep acc, p.1 ≠ "unknown" := by
    intro ns
    induction ns with
    | nil => intro acc h; exact h
    | cons s ss ih =>
      intro acc h
      simp only [List.foldl_cons]
      refine ih (sStep acc s) ?_
      intro p hp
      by_cases hU : stressorKeyOf s = "unknown"
      · rw [show sStep acc s = acc from by simp [sStep, hU]] at hp
        exact h p hp
      · rw [show sStep acc s = addToGroups acc (stressorKeyOf s) s from by
          simp [sStep, hU]] at hp
        rcases addToGroups_mem_keys acc _ s p hp with hin | hnew
        · rcases List.mem_map.mp hin with ⟨q, hq, hq1⟩
          rw [← hq1]
          exact h q hq
        · rw [hnew]
          exact hU
  intro p hp
  exact haux stressors [] (by simp) p hp

/-- In an association list with distinct keys, membership determines the lookup. -/
theorem findGroup_of_mem_nodup (gs : List (String × List β)) (k : String)
    (vs : List β) (hnd : (gs.map (·.1)).Nodup) (hmem : (k, vs) ∈ gs) :
    findGroup gs k = some vs := by
  induction gs with
  | nil => cases hmem
  | cons p rest ih =>
    obtain ⟨k0, vs0⟩ := p
    rcases List.mem_cons.mp hmem with h | h
    · rw [show k0 = k from (congrArg Prod.fst h).symm,
        show vs0 = vs from (congrArg Prod.snd h).symm]
      exact findGroup_cons_eq k vs rest
    · have hnd' : (k0 :: rest.map (·.1)).Nodup := by
        rw [List.map_cons] at hnd
        exact hnd
      have hk0 : k0 ∉ rest.map (·.1) := (List.nodup_cons.mp hnd').1
      have hkne : k0 ≠ k := by
        intro hc
        subst hc
        exact hk0 (List.mem_map_of_mem _ h)
      rw [findGroup_cons_ne k0 vs0 rest k hkne]
      exact ih (List.nodup_cons.mp hnd').2 h

/-- A successful lookup exhibits a member of the association list. -/
theorem mem_of_findGroup (gs : List (String × List β)) (k : String) (vs : List β)
    (h : findGroup gs k = some vs) : (k, vs) ∈ gs := by
  unfold findGroup at h
  cases hf : gs.find? fun p => p.1 == k with
  | none => rw [hf] at h; cases h
  | some p =>
    rw [hf] at h
    have hp2 : p.2 = vs := by simpa using h
    have hpk : p.1 = k := by
      have := List.find?_some hf
      simpa using this
    have hpm := List.mem_of_find?_eq_some hf
    have : p = (k, vs) := by
      cases p
      simp only at hp2 hpk
      rw [hp2, hpk]
    rw [← this]
    exact hpm

/-- Every stressor group is the filter of the input by its key: nonempty, with a
non-`unknown` key, containing exactly the stressors normalizing to that key. -/
theorem stressorGroupsOf_mem_char (stressors : List PyNode) (k : String)
    (ss : List PyNode) (hmem : (k, ss) ∈ stressorGroupsOf stressors) :
    k ≠ "unknown" ∧ ss ≠ []
      ∧ ss = stressors.filter fun s => stressorKeyOf s == k := by
  have hk : k ≠ "unknown" :=
    stressorGroupsOf_keys_ne_unknown stressors (k, ss) hmem
  have hfind : findGroup (stressorGroupsOf stressors) k = some ss :=
    findGroup_of_mem_nodup _ k ss (stressorGroupsOf_keys_nodup stressors) hmem
  rw [stressorGroupsOf_findGroup stressors k hk] at hfind
  by_cases hf : (stressors.filter fun s => stressorKeyOf s == k) = []
  · rw [if_pos hf] at hfind
    cases hfind
  · rw [if_neg hf] at hfind
    have := Option.some.inj hfind
    exact ⟨hk, this ▸ hf, this.symm⟩

/-- The guarded stressor block yields groups only from `stressors_by_aop`, so the
same characterization holds for the build-level group list. -/
theorem sGroupsOf_mem_char (nodes : List PyNode) (excl : Bool) (k : String)
    (ss : List PyNode) (hmem : (k, ss) ∈ sGroupsOf nodes excl) :
    k ≠ "unknown" ∧ ss ≠ []
      ∧ ss = (stressorNodesOf nodes).filter fun s => stressorKeyOf s == k := by
  unfold sGroupsOf at hmem
  dsimp only at hmem
  split at hmem
  · cases hmem
  · exact stressorGroupsOf_mem_char (stressorNodesOf nodes) k ss hmem

/-- Every group key is a non-empty digit string (it survived the `'unknown'`
skip, so it is a non-empty `_extract_aop_id` result). -/
theorem sGroupsOf_key_digits (nodes : List PyNode) (excl : Bool) (k : String)
    (ss : List PyNode) (hmem : (k, ss) ∈ sGroupsOf nodes excl) :
    (∀ c ∈ k.data, c.isDigit = true) ∧ k ≠ "" := by
  obtain ⟨hku, hne, hss⟩ := sGroupsOf_mem_char nodes excl k ss hmem
  obtain ⟨m, hm⟩ := List.exists_mem_of_ne_nil ss hne
  have hmf : m ∈ (stressorNodesOf nodes).filter fun s => stressorKeyOf s == k :=
    hss ▸ hm
  have hkey : stressorKeyOf m = k := by
    have := (List.mem_filter.mp hmf).2
    exact beq_iff_eq.mp this
  unfold stressorKeyOf at hkey
  by_cases he : extractAopId (aopRawOf m) = ""
  · rw [if_pos he] at hkey
    exact absurd hkey.symm hku
  · rw [if_neg he] at hkey
    subst hkey
    exact ⟨fun c hc => extractAopId_all_digits _ c hc, he⟩

/-- Every type hypernode of a build has type `type-hypernode`. -/
theorem typeHnsOf_type (nodes : List PyNode) (M : Nat) :
    ∀ h ∈ typeHnsOf nodes M, h.type = "type-hypernode" := by
  intro h hh
  unfold typeHnsOf at hh
  rcases List.mem_flatMap.mp hh with ⟨p, _, hmem⟩
  exact (typeHypernodesFor_mem M p.1 p.2 h hmem).1

/-- The `stressor_hypernodes` filter of the ensure loop recovers exactly the
stressor hypernodes of the build. -/
theorem filter_stressorHns (nodes : List PyNode) (M : Nat) (excl : Bool) :
    ((allHypernodesOf nodes M excl).filter
        fun h => h.type == "stressor-hypernode") = sHnsOf nodes excl := by
  unfold allHypernodesOf
  rw [List.filter_append]
  have h1 : ((typeHnsOf nodes M).filter
      fun h => h.type == "stressor-hypernode") = [] := by
    rw [List.filter_eq_nil_iff]
    intro h hh
    simp [typeHnsOf_type nodes M h hh]
  have h2 : ((sHnsOf nodes excl).filter
      fun h => h.type == "stressor-hypernode") = sHnsOf nodes excl := by
    rw [List.filter_eq_self]
    intro h hh
    simp [sHnsOf_type nodes excl h hh]
  rw [h1, h2, List.nil_append]

/-- Every stressor hypernode of a build is the hypernode of one of its groups. -/
theorem mem_sHnsOf (nodes : List PyNode) (excl : Bool) (h : Hypernode)
    (hh : h ∈ sHnsOf nodes excl) :
    ∃ p ∈ sGroupsOf nodes excl, 0 < p.2.length ∧ h = mkStressorHn p.1 p.2 := by
  unfold sHnsOf at hh
  rcases List.mem_flatMap.mp hh with ⟨p, hp, hmem⟩
  refine ⟨p, hp, ?_⟩
  split at hmem
  · rename_i hlen
    exact ⟨hlen, (List.mem_singleton.mp hmem).symm ▸ rfl⟩
  · simp at hmem

theorem flatMap_eq_nil_of (gs : List γ) (f : γ → List δ)
    (hall : ∀ g ∈ gs, f g = []) : gs.flatMap f = [] := by
  induction gs with
  | nil => rfl
  | cons g rest ih =>
    rw [List.flatMap_cons, hall g (List.mem_cons_self g rest),
      ih fun x hx => hall x (List.mem_cons_of_mem g hx), List.nil_append]

/-- A flat map over an association list with distinct keys, where only the
entries keyed `K` produce anything: the result is exactly the `K`-entry's
output. -/
theorem flatMap_groups_single (gs : List (String × List PyNode))
    (f : String × List PyNode → List δ) (K : String) (ss : List PyNode)
    (out : List δ) (hnd : (gs.map (·.1)).Nodup) (hmem : (K, ss) ∈ gs)
    (hother : ∀ g ∈ gs, g.1 ≠ K → f g = [])
    (hK : ∀ g ∈ gs, g.1 = K → f g = out) : gs.flatMap f = out := by
  induction gs with
  | nil => cases hmem
  | cons g rest ih =>
    rw [List.flatMap_cons]
    have hnd' : (g.1 :: rest.map (·.1)).Nodup := by
      rw [List.map_cons] at hnd
      exact hnd
    by_cases hg : g.1 = K
    · rw [hK g (List.mem_cons_self g rest) hg]
      have hrest : rest.flatMap f = [] := by
        refine flatMap_eq_nil_of rest f fun x hx => ?_
        refine hother x (List.mem_cons_of_mem g hx) fun hc => ?_
        have : g.1 ∈ rest.map (·.1) := by
          rw [hg, ← hc]
          exact List.mem_map_of_mem _ hx
        exact (List.nodup_cons.mp hnd').1 this
      rw [hrest, List.append_nil]
    · rw [hother g (List.mem_cons_self g rest) hg, List.nil_append]
      have hmem' : (K, ss) ∈ rest := by
        rcases List.mem_cons.mp hmem with h | h
        · exact absurd (congrArg Prod.fst h.symm) hg
        · exact h
      exact ih (List.nodup_cons.mp hnd').2 hmem'
        (fun x hx => hother x (List.mem_cons_of_mem g hx))
        (fun x hx => hK x (List.mem_cons_of_mem g hx))

theorem filter_flatMap_comm (p : δ → Bool) (gs : List γ) (f : γ → List δ) :
    (gs.flatMap f).filter p = gs.flatMap fun g => (f g).filter p := by
  induction gs with
  | nil => rfl
  | cons g rest ih => rw [List.flatMap_cons, List.flatMap_cons, List.filter_append, ih]

theorem filter_map_comm (f : γ → δ) (p : δ → Bool) (l : List γ) :
    (l.map f).filter p = (l.filter fun x => p (f x)).map f := by
  induction l with
  | nil => rfl
  | cons x rest ih =>
    rw [List.map_cons, List.filter_cons, List.filter_cons]
    by_cases hp : p (f x) = true
    · rw [hp]
      simp only [if_true, List.map_cons, ih]
    · rw [Bool.not_eq_true] at hp
      rw [hp]
      simp only [Bool.false_eq_true, if_false, ih]

/-- Distinct node ids make `id` injective on the node list. -/
theorem nodes_id_inj (nodes : List PyNode) (hnd : (nodes.map (·.id)).Nodup) :
    ∀ a ∈ nodes, ∀ b ∈ nodes, a.id = b.id → a = b := by
  induction nodes with
  | nil => intro a ha; cases ha
  | cons n rest ih =>
    intro a ha b hb hab
    have hnd' : (n.id :: rest.map (·.id)).Nodup := by
      rw [List.map_cons] at hnd
      exact hnd
    have hnotin := (List.nodup_cons.mp hnd').1
    rcases List.mem_cons.mp ha with ha | ha <;> rcases List.mem_cons.mp hb with hb | hb
    · rw [ha, hb]
    · refine absurd ?_ hnotin
      rw [← ha, hab]
      exact List.mem_map_of_mem _ hb
    · refine absurd ?_ hnotin
      rw [← hb, ← hab]
      exact List.mem_map_of_mem _ ha
    · exact ih (List.nodup_cons.mp hnd').2 a ha b hb hab

theorem getLast?_mem (l : List δ) (a : δ) (h : l.getLast? = some a) : a ∈ l := by
  cases l with
  | nil => cases h
  | cons x xs =>
    rw [List.getLast?_eq_getLast (x :: xs) (by simp)] at h
    rw [← Option.some.inj h]
    exact List.getLast_mem _

/-- The normalized stressor key, with its `let` unfolded. -/
theorem stressorKeyOf_eq (s : PyNode) :
    stressorKeyOf s
      = if extractAopId (aopRawOf s) = "" then "unknown"
        else extractAopId (aopRawOf s) := rfl

/-- A normalized stressor key is never the empty string: it is `'unknown'` or a
non-empty extraction. -/
theorem stressorKeyOf_ne_empty (s : PyNode) : stressorKeyOf s ≠ "" := by
  unfold stressorKeyOf
  dsimp only
  split
  · decide
  · rename_i h
    exact h

/-- A non-`unknown` normalized stressor key is its own extraction: a non-empty
all-digit string. -/
theorem stressorKeyOf_digits (s : PyNode) (h : stressorKeyOf s ≠ "unknown") :
    (∀ c ∈ (stressorKeyOf s).data, c.isDigit)
      ∧ extractAopId (stressorKeyOf s) = stressorKeyOf s := by
  have hk : stressorKeyOf s = extractAopId (aopRawOf s) := by
    unfold stressorKeyOf at h ⊢
    dsimp only at h ⊢
    split
    · rename_i he
      rw [if_pos he] at h
      exact absurd rfl h
    · rfl
  rw [hk]
  exact ⟨extractAopId_all_digits _,
    extractAopId_of_all_digits _ (extractAopId_all_digits _)⟩

/-- Hit analysis of the ensure-loop lookup: a hit on a stressor's normalized key
can only return the hypernode of that key's own group, whose id is the
deterministic `stressor-hypernode-aop-` id of the key. -/
theorem mapGet_hit (nodes : List PyNode) (M : Nat) (excl : Bool) (s : PyNode)
    (h : Hypernode)
    (hhit : mapGetStressorHn ((allHypernodesOf nodes M excl).filter
        fun x => x.type == "stressor-hypernode") (stressorKeyOf s) = some h) :
    ∃ ss, (stressorKeyOf s, ss) ∈ sGroupsOf nodes excl
      ∧ h.id = "stressor-hypernode-aop-" ++ stressorKeyOf s := by
  rw [filter_stressorHns] at hhit
  unfold mapGetStressorHn at hhit
  have hmemf := getLast?_mem _ _ hhit
  have hhs : h ∈ sHnsOf nodes excl := (List.mem_filter.mp hmemf).1
  have haop : h.aop_id = some (stressorKeyOf s) := by
    have := (List.mem_filter.mp hmemf).2
    simpa using this
  obtain ⟨⟨k, ss⟩, hp, _, hform⟩ := mem_sHnsOf nodes excl h hhs
  obtain ⟨hku, hne, hss⟩ := sGroupsOf_mem_char nodes excl k ss hp
  obtain ⟨s0h, rest0, hcons⟩ : ∃ a t, ss = a :: t := by
    cases ss with
    | nil => exact absurd rfl hne
    | cons a t => exact ⟨a, t, rfl⟩
  have haopv : h.aop_id
      = some (match s0h.aop_id with | some v => v | none => k) := by
    rw [hform, hcons]
    rfl
  have hs0mem : s0h ∈ ss := by
    rw [hcons]
    exact List.mem_cons_self _ _
  have hs0key : stressorKeyOf s0h = k := by
    have hin : s0h ∈ (stressorNodesOf nodes).filter
        fun x => stressorKeyOf x == k := hss ▸ hs0mem
    exact beq_iff_eq.mp (List.mem_filter.mp hin).2
  have hkK : k = stressorKeyOf s := by
    have hmatch : (match s0h.aop_id with | some v => v | none => k)
        = stressorKeyOf s := by
      rw [haopv] at haop
      exact Option.some.inj haop
    cases hvs : s0h.aop_id with
    | none =>
      rw [hvs] at hmatch
      exact hmatch
    | some v =>
      rw [hvs] at hmatch
      have hv : v = stressorKeyOf s := hmatch
      have hraw : aopRawOf s0h = stressorKeyOf s := by
        unfold aopRawOf
        rw [hvs]
        dsimp only [Option.getD]
        rw [hv, if_pos (stressorKeyOf_ne_empty s)]
      by_cases hKu : stressorKeyOf s = "unknown"
      · exfalso
        apply hku
        rw [← hs0key, stressorKeyOf_eq s0h, hraw, hKu, if_pos (by decide)]
      · obtain ⟨_, hext⟩ := stressorKeyOf_digits s hKu
        rw [← hs0key, stressorKeyOf_eq s0h, hraw, hext,
          if_neg (stressorKeyOf_ne_empty s)]
  subst hkK
  refine ⟨ss, hp, ?_⟩
  rw [hform]
  rfl

/-- Every member of a stressor group has its `stressor-connection` to the group
hypernode among the synthesized stressor connections. -/
theorem sConns_mem (nodes : List PyNode) (excl : Bool) (K : String)
    (ssK : List PyNode) (hmem : (K, ssK) ∈ sGroupsOf nodes excl) (s : PyNode)
    (hs : s ∈ ssK) :
    ∃ c ∈ sConnsOf nodes excl,
      c.source = s.id ∧ c.target = "stressor-hypernode-aop-" ++ K := by
  unfold sConnsOf
  have hlen : 0 < ssK.length := by
    cases ssK with
    | nil => cases hs
    | cons a t => simp
  refine ⟨{ id := s.id ++ "-" ++ ("stressor-hypernode-aop-" ++ K)
            source := s.id
            target := "stressor-hypernode-aop-" ++ K
            type := "stressor-connection"
            weight := 1
            label := aopLabelOf K ssK
            aop := K },
    List.mem_flatMap.mpr ⟨(K, ssK), hmem, ?_⟩, rfl, rfl⟩
  rw [if_pos hlen]
  unfold stressorGroupConnsFor
  exact List.mem_map_of_mem _ hs

/-- The ensure loop appends nothing when every possible lookup hit is already
covered by an existing `(source, target)` pair. -/
theorem ensureLoop_noop (stressors : List PyNode) (shns : List Hypernode)
    (conns : List Conn) :
    (∀ s ∈ stressors, ∀ h : Hypernode,
      mapGetStressorHn shns (stressorKeyOf s) = some h →
      conns.any (fun c => c.source == s.id && c.target == h.id) = true) →
    ensureLoop stressors shns conns = conns := by
  induction stressors with
  | nil => intro _; rfl
  | cons s rest ih =>
    intro hc
    unfold ensureLoop
    rw [List.foldl_cons]
    have hstep : ensStep shns conns s = conns := by
      unfold ensStep
      dsimp only
      cases hm : mapGetStressorHn shns (stressorKeyOf s) with
      | none => rfl
      | some h =>
        simp [hc s (List.mem_cons_self s rest) h hm]
    rw [hstep]
    exact ih fun x hx => hc x (List.mem_cons_of_mem s hx)

/-- The final-dedup key, grouped to expose the connection type as suffix. -/
theorem connKey_shape (c : Conn) :
    connKey c = (c.source.data ++ "->".data ++ c.target.data ++ ":".data)
      ++ c.type.data := rfl

/-- Every member-to-type-hypernode connection has type `hypernode-connection`. -/
theorem typeConnsOf_type (nodes : List PyNode) (M : Nat) :
    ∀ c ∈ typeConnsOf nodes M, c.type = "hypernode-connection" := by
  intro c hc
  unfold typeConnsOf at hc
  rcases List.mem_flatMap.mp hc with ⟨p, _, hmem⟩
  unfold typeConnsFor at hmem
  rcases List.mem_flatMap.mp hmem with ⟨q, _, hmem2⟩
  dsimp only at hmem2
  rcases List.mem_map.mp hmem2 with ⟨m, _, rfl⟩
  rfl

/-- With stressors present and no exclusion, the build's group list is the
grouping of the stressor nodes. -/
theorem sGroupsOf_false_eq (nodes : List PyNode) (h : stressorNodesOf nodes ≠ []) :
    sGroupsOf nodes false = stressorGroupsOf (stressorNodesOf nodes) := by
  unfold sGroupsOf
  dsimp only
  rw [if_neg]
  intro hc
  simp only [Bool.or_false] at hc
  exact h (by simpa using hc)

/-- The adverse-outcome loop only appends, and only `stressor-adverse-hyperedge`
connections. -/
theorem adverseLoop_extra (shns aohns : List Hypernode) :
    ∀ conns : List Conn, ∃ extra : List Conn,
      adverseLoop shns aohns conns = conns ++ extra
        ∧ ∀ c ∈ extra, c.type = "stressor-adverse-hyperedge" := by
  induction shns with
  | nil =>
    intro conns
    exact ⟨[], by simp [adverseLoop], by simp⟩
  | cons shn rest ih =>
    intro conns
    have hstep : ∃ e1 : List Conn, advStep aohns conns shn = conns ++ e1
        ∧ ∀ c ∈ e1, c.type = "stressor-adverse-hyperedge" := by
      unfold advStep
      dsimp only
      cases aohns.head? with
      | none => exact ⟨[], by simp, by simp⟩
      | some tgt =>
        dsimp only
        by_cases hany :
            (conns.any fun c => c.source == shn.id && c.target == tgt.id) = true
        · rw [if_pos hany]
          exact ⟨[], by simp, by simp⟩
        · rw [if_neg hany]
          refine ⟨_, rfl, ?_⟩
          intro c hc
          rw [List.mem_singleton.mp hc]
    obtain ⟨e1, he1, ht1⟩ := hstep
    obtain ⟨e2, he2, ht2⟩ := ih (advStep aohns conns shn)
    refine ⟨e1 ++ e2, ?_, ?_⟩
    · show adverseLoop rest aohns (advStep aohns conns shn) = conns ++ (e1 ++ e2)
      rw [he2, he1, List.append_assoc]
    · intro c hc
      rcases List.mem_append.mp hc with hc | hc
      · exact ht1 c hc
      · exact ht2 c hc

/-- A list filtering to a singleton splits around the unique matching element. -/
theorem filter_eq_single_decomp (p : δ → Bool) (l : List δ) (c : δ)
    (h : l.filter p = [c]) :
    ∃ l₁ l₂, l = l₁ ++ c :: l₂ ∧ (∀ x ∈ l₁, p x = false)
      ∧ ∀ x ∈ l₂, p x = false := by
  induction l with
  | nil => cases h
  | cons a rest ih =>
    rw [List.filter_cons] at h
    by_cases hp : p a = true
    · rw [if_pos hp] at h
      have ha : a = c := (List.cons.inj h).1
      have hr : rest.filter p = [] := (List.cons.inj h).2
      refine ⟨[], rest, by rw [ha, List.nil_append], by simp, fun x hx => ?_⟩
      have := List.filter_eq_nil_iff.mp hr x hx
      simpa using this
    · have hpf : p a = false := by
        cases hpa : p a
        · rfl
        · exact absurd hpa hp
      rw [if_neg hp] at h
      obtain ⟨l₁, l₂, hdec, h1, h2⟩ := ih h
      refine ⟨a :: l₁, l₂, by rw [List.cons_append, hdec], ?_, h2⟩
      intro x hx
      rcases List.mem_cons.mp hx with hx | hx
      · rw [hx]
        exact hpf
      · exact h1 x hx

theorem sublist_singleton_of_mem (l : List δ) (a : δ) (hs : l.Sublist [a])
    (hm : a ∈ l) : l = [a] := by
  cases l with
  | nil => cases hm
  | cons x xs =>
    have hx : x = a := by
      have := hs.subset (List.mem_cons_self x xs)
      simpa using this
    have hlen := hs.length_le
    simp only [List.length_cons] at hlen
    have hxs : xs = [] := List.eq_nil_of_length_eq_zero (by simpa using hlen)
    rw [hx, hxs]

/-- In a duplicate-free list where `id` determines the element, filtering by one
member's id yields exactly that member. -/
theorem filter_id_eq_single (s0 : PyNode) (l : List PyNode) (hnd : l.Nodup)
    (hinj : ∀ a ∈ l, a.id = s0.id → a = s0) (hs0 : s0 ∈ l) :
    l.filter (fun m => m.id == s0.id) = [s0] := by
  induction l with
  | nil => cases hs0
  | cons a rest ih =>
    have hnd' := List.nodup_cons.mp hnd
    rw [List.filter_cons]
    by_cases hpa : a.id = s0.id
    · have ha : a = s0 := hinj a (List.mem_cons_self a rest) hpa
      rw [if_pos (by simp [hpa])]
      have hrest : rest.filter (fun m => m.id == s0.id) = [] := by
        rw [List.filter_eq_nil_iff]
        intro b hb hbid
        have hb0 : b = s0 := hinj b (List.mem_cons_of_mem a hb) (by simpa using hbid)
        refine hnd'.1 ?_
        rw [ha]
        exact hb0 ▸ hb
      rw [hrest, ha]
    · rw [if_neg (by simp [hpa])]
      have hs0' : s0 ∈ rest := by
        rcases List.mem_cons.mp hs0 with h | h
        · exact absurd (show a.id = s0.id by rw [h]) hpa
        · exact h
      exact ih hnd'.2 (fun b hb => hinj b (List.mem_cons_of_mem a hb)) hs0'

/-- A stressor whose AOP reference extracts to a non-empty digit string keys to
that extraction, never to `'unknown'`. -/
theorem stressorKeyOf_of_digits (s0 : PyNode)
    (hkey : extractAopId (aopRawOf s0) ≠ "") :
    stressorKeyOf s0 = extractAopId (aopRawOf s0)
      ∧ stressorKeyOf s0 ≠ "unknown" := by
  have h1 : stressorKeyOf s0 = extractAopId (aopRawOf s0) := by
    rw [stressorKeyOf_eq, if_neg hkey]
  refine ⟨h1, ?_⟩
  intro hc
  have hd := extractAopId_all_digits (aopRawOf s0)
  rw [← h1, hc] at hd
  exact absurd (hd 'u' (by decide)) (by decide)

/-- "Connected to a stressor hypernode": a returned connection leaving `s0` of
either stressor-to-hypernode kind (`stressor-connection` from the group pass,
`stressor-to-aop-hypernode` from the ensure pass). -/
def c5Pred (s0 : PyNode) (c : Conn) : Bool :=
  c.source == s0.id
    && (c.type == "stressor-connection" || c.type == "stressor-to-aop-hypernode")

/-- The one connection the build synthesizes from a grouped stressor to its AOP
hypernode. -/
def c5Conn (nodes : List PyNode) (s0 : PyNode) : Conn :=
  { id := s0.id ++ "-" ++ ("stressor-hypernode-aop-" ++ stressorKeyOf s0)
    source := s0.id
    target := "stressor-hypernode-aop-" ++ stressorKeyOf s0
    type := "stressor-connection"
    weight := 1
    label := aopLabelOf (stressorKeyOf s0)
      ((stressorNodesOf nodes).filter fun m => stressorKeyOf m == stressorKeyOf s0)
    aop := stressorKeyOf s0 }

theorem filter_typeConns_c5 (s0 : PyNode) (nodes : List PyNode) (M : Nat) :
    (typeConnsOf nodes M).filter (c5Pred s0) = [] := by
  rw [List.filter_eq_nil_iff]
  intro c hc
  have ht := typeConnsOf_type nodes M c hc
  simp [c5Pred, ht]

theorem filter_groupConns_c5 (s0 : PyNode) (k : String) (ss : List PyNode) :
    (stressorGroupConnsFor k ss).filter (c5Pred s0)
      = (ss.filter fun m => m.id == s0.id).map
          (fun m => { id := m.id ++ "-" ++ ("stressor-hypernode-aop-" ++ k)
                      source := m.id
                      target := "stressor-hypernode-aop-" ++ k
                      type := "stressor-connection"
                      weight := 1
                      label := aopLabelOf k ss
                      aop := k }) := by
  unfold stressorGroupConnsFor
  dsimp only
  rw [filter_map_comm]
  congr 1
  apply List.filter_congr
  intro m _
  simp [c5Pred]

/-- The group-pass stressor connections leaving `s0` are exactly its one
canonical connection, under distinct node ids. -/
theorem filter_sConns_c5 (nodes : List PyNode) (s0 : PyNode)
    (hnd : (nodes.map (·.id)).Nodup) (hs0 : s0 ∈ nodes)
    (hty : s0.type = some "Stressor")
    (hkey : extractAopId (aopRawOf s0) ≠ "") :
    (sConnsOf nodes false).filter (c5Pred s0) = [c5Conn nodes s0] := by
  have hsmem : s0 ∈ stressorNodesOf nodes :=
    List.mem_filter.mpr ⟨hs0, by simp [hty]⟩
  have hKu := (stressorKeyOf_of_digits s0 hkey).2
  have hne : stressorNodesOf nodes ≠ [] := fun hc => by
    rw [hc] at hsmem
    cases hsmem
  have hg : sGroupsOf nodes false = stressorGroupsOf (stressorNodesOf nodes) :=
    sGroupsOf_false_eq nodes hne
  have hs0f : s0 ∈ (stressorNodesOf nodes).filter
      fun m => stressorKeyOf m == stressorKeyOf s0 :=
    List.mem_filter.mpr ⟨hsmem, by simp⟩
  have hfne : ((stressorNodesOf nodes).filter
      fun m => stressorKeyOf m == stressorKeyOf s0) ≠ [] := by
    intro hc
    rw [hc] at hs0f
    cases hs0f
  have hfind : findGroup (sGroupsOf nodes false) (stressorKeyOf s0)
      = some ((stressorNodesOf nodes).filter
          fun m => stressorKeyOf m == stressorKeyOf s0) := by
    rw [hg, stressorGroupsOf_findGroup _ _ hKu, if_neg hfne]
  have hmemg := mem_of_findGroup _ _ _ hfind
  have hkeysnd : ((sGroupsOf nodes false).map (·.1)).Nodup := by
    rw [hg]
    exact stressorGroupsOf_keys_nodup _
  have hinj := nodes_id_inj nodes hnd
  have hnodesnd : nodes.Nodup := List.Nodup.of_map _ hnd
  unfold sConnsOf
  rw [filter_flatMap_comm]
  refine flatMap_groups_single (sGroupsOf nodes false) _ (stressorKeyOf s0) _ _
    hkeysnd hmemg ?_ ?_
  · intro g hgmem hg1
    obtain ⟨k, gss⟩ := g
    obtain ⟨hku', hne', hss'⟩ := sGroupsOf_mem_char nodes false k gss hgmem
    have hlen : 0 < gss.length := by
      cases gss with
      | nil => exact absurd rfl hne'
      | cons a t => simp
    rw [if_pos hlen, filter_groupConns_c5]
    have hzero : (gss.filter fun m => m.id == s0.id) = [] := by
      rw [List.filter_eq_nil_iff]
      intro b hb hbid
      have hbs : b ∈ stressorNodesOf nodes := by
        rw [hss'] at hb
        exact (List.mem_filter.mp hb).1
      have hb0 : b = s0 := hinj b ((List.mem_filter.mp hbs).1) s0 hs0
        (beq_iff_eq.mp (by simpa using hbid))
      have hbk : stressorKeyOf b = k := by
        rw [hss'] at hb
        exact beq_iff_eq.mp (List.mem_filter.mp hb).2
      apply hg1
      rw [← hbk, hb0]
    rw [hzero, List.map_nil]
  · intro g hgmem hg1
    obtain ⟨k, gss⟩ := g
    dsimp only at hg1
    subst hg1
    have hval := findGroup_of_mem_nodup _ _ _ hkeysnd hgmem
    rw [hfind] at hval
    have hgss := Option.some.inj hval
    subst hgss
    have hlen : 0 < ((stressorNodesOf nodes).filter
        fun m => stressorKeyOf m == stressorKeyOf s0).length := by
      cases hcase : (stressorNodesOf nodes).filter
          fun m => stressorKeyOf m == stressorKeyOf s0 with
      | nil => exact absurd hcase hfne
      | cons a t => simp [hcase]
    rw [if_pos hlen, filter_groupConns_c5]
    have hsingle : (((stressorNodesOf nodes).filter
        fun m => stressorKeyOf m == stressorKeyOf s0).filter
          fun m => m.id == s0.id) = [s0] := by
      refine filter_id_eq_single s0 _ ?_ ?_ hs0f
      · exact List.Nodup.filter _ (List.Nodup.filter _ hnodesnd)
      · intro a ha haid
        have ha' : a ∈ stressorNodesOf nodes := (List.mem_filter.mp ha).1
        exact hinj a ((List.mem_filter.mp ha').1) s0 hs0 haid
    rw [hsingle, List.map_cons, List.map_nil]
    rfl

/-- Before the ensure and adverse passes, the connections leaving `s0` of
stressor-to-hypernode kind are exactly the canonical one. -/
theorem filter_base_c5 (nodes : List PyNode) (M : Nat) (s0 : PyNode)
    (hnd : (nodes.map (·.id)).Nodup) (hs0 : s0 ∈ nodes)
    (hty : s0.type = some "Stressor")
    (hkey : extractAopId (aopRawOf s0) ≠ "") :
    (typeConnsOf nodes M ++ sConnsOf nodes false).filter (c5Pred s0)
      = [c5Conn nodes s0] := by
  rw [List.filter_append, filter_typeConns_c5,
    filter_sConns_c5 nodes s0 hnd hs0 hty hkey, List.nil_append]

theorem string_data_inj (a b : String) (h : a.data = b.data) : a = b := by
  cases a
  cases b
  simp only at h
  rw [h]

/-- Every group-pass stressor connection has type `stressor-connection` and
targets the deterministic hypernode id of a digit-only group key. -/
theorem sConnsOf_shape (nodes : List PyNode) (excl : Bool) :
    ∀ c ∈ sConnsOf nodes excl, c.type = "stressor-connection"
      ∧ ∃ k : String, c.target = "stressor-hypernode-aop-" ++ k
        ∧ ∀ ch ∈ k.data, ch.isDigit = true := by
  intro c hc
  unfold sConnsOf at hc
  rcases List.mem_flatMap.mp hc with ⟨⟨k, gss⟩, hmem, hcin⟩
  have hdig := sGroupsOf_key_digits nodes excl k gss hmem
  split at hcin
  · unfold stressorGroupConnsFor at hcin
    dsimp only at hcin
    rcases List.mem_map.mp hcin with ⟨m, _, rfl⟩
    exact ⟨rfl, k, rfl, hdig.1⟩
  · cases hcin

/-- The ensure pass is a no-op: every lookup hit is the hypernode of the
stressor's own group, whose connection the group pass already appended. -/
theorem preDedupConnsOf_eq (nodes : List PyNode) (M : Nat) (excl : Bool) :
    preDedupConnsOf nodes M excl
      = adverseLoop
          ((allHypernodesOf nodes M excl).filter
            fun h => h.type == "stressor-hypernode")
          ((allHypernodesOf nodes M excl).filter fun h =>
            h.type == "type-hypernode"
              && containsSub "AdverseOutcome".data h.original_type.data)
          (typeConnsOf nodes M ++ sConnsOf nodes excl) := by
  unfold preDedupConnsOf
  dsimp only
  congr 1
  apply ensureLoop_noop
  intro s hs h hhit
  obtain ⟨ss, hg, hid⟩ := mapGet_hit nodes M excl s h hhit
  obtain ⟨hku, hne, hss⟩ := sGroupsOf_mem_char nodes excl _ ss hg
  have hsin : s ∈ ss := by
    rw [hss]
    exact List.mem_filter.mpr ⟨hs, by simp⟩
  obtain ⟨c, hcmem, hcsrc, hctgt⟩ := sConns_mem nodes excl _ ss hg s hsin
  refine List.any_eq_true.mpr ⟨c, List.mem_append.mpr (Or.inr hcmem), ?_⟩
  simp [hcsrc, hctgt, hid]

/-- C5: in a build that does not exclude stressor hypernodes and whose node ids
are distinct, every Stressor node whose AOP reference yields a non-empty digit
key is connected — by exactly one returned connection of a stressor-to-hypernode
kind, namely its canonical `stressor-connection` — to one stressor hypernode of
the result (the ensure pass adds nothing because the `(source, target)` pair
already exists). -/
theorem c5_stressor_connection (nodes : List PyNode) (edges : List PyEdge)
    (min_nodes : Nat) (hnd : (nodes.map (·.id)).Nodup) (s0 : PyNode)
    (hs0 : s0 ∈ nodes) (hty : s0.type = some "Stressor")
    (hkey : extractAopId (aopRawOf s0) ≠ "") :
    ((createHypergraphElements nodes edges min_nodes
        false).hypernode_connections.filter (c5Pred s0)) = [c5Conn nodes s0]
    ∧ ∃ hn ∈ (createHypergraphElements nodes edges min_nodes false).hypernodes,
        hn.type = "stressor-hypernode" ∧ hn.id = (c5Conn nodes s0).target := by
  have hconns : (createHypergraphElements nodes edges min_nodes
      false).hypernode_connections
      = dedupBy connKey (preDedupConnsOf nodes (max 1 min_nodes) false) := rfl
  have hpre := preDedupConnsOf_eq nodes (max 1 min_nodes) false
  obtain ⟨extra, hextra, hextraty⟩ :=
    adverseLoop_extra
      ((allHypernodesOf nodes (max 1 min_nodes) false).filter
        fun h => h.type == "stressor-hypernode")
      ((allHypernodesOf nodes (max 1 min_nodes) false).filter fun h =>
        h.type == "type-hypernode"
          && containsSub "AdverseOutcome".data h.original_type.data)
      (typeConnsOf nodes (max 1 min_nodes) ++ sConnsOf nodes false)
  have hbase := filter_base_c5 nodes (max 1 min_nodes) s0 hnd hs0 hty hkey
  have hprefilter : (preDedupConnsOf nodes (max 1 min_nodes) false).filter
      (c5Pred s0) = [c5Conn nodes s0] := by
    rw [hpre, hextra, List.filter_append, hbase]
    have hz : extra.filter (c5Pred s0) = [] := by
      rw [List.filter_eq_nil_iff]
      intro c hc
      have := hextraty c hc
      simp [c5Pred, this]
    rw [hz, List.append_nil]
  obtain ⟨l₁, l₂, hdec, h1, _⟩ := filter_eq_single_decomp _ _ _ hprefilter
  have hk0dig : ∀ ch ∈ (stressorKeyOf s0).data, ch.isDigit = true := by
    intro ch hch
    rw [(stressorKeyOf_of_digits s0 hkey).1] at hch
    exact extractAopId_all_digits _ ch hch
  have hkeys : ∀ x ∈ l₁, connKey x ≠ connKey (c5Conn nodes s0) := by
    intro x hx
    have hxpre : x ∈ preDedupConnsOf nodes (max 1 min_nodes) false := by
      rw [hdec]
      exact List.mem_append_left _ hx
    rw [hpre, hextra] at hxpre
    have hty0 : (c5Conn nodes s0).type = "stressor-connection" := rfl
    rcases List.mem_append.mp hxpre with hxbase | hxextra
    · rcases List.mem_append.mp hxbase with hxt | hxs
      · have htyx := typeConnsOf_type nodes (max 1 min_nodes) x hxt
        rw [connKey_shape, connKey_shape, htyx, hty0]
        exact append_ne_of_reverse_take_ne _ _ _ _ 19 (by decide) (by decide)
          (by decide)
      · obtain ⟨htyx, kx, htgtx, hkdig⟩ := sConnsOf_shape nodes false x hxs
        intro hkeq
        rw [connKey_shape, connKey_shape, htyx, hty0] at hkeq
        have hA := List.append_cancel_right hkeq
        have hA2 := List.append_cancel_right hA
        rw [htgtx, show (c5Conn nodes s0).source = s0.id from rfl,
          show (c5Conn nodes s0).target
            = "stressor-hypernode-aop-" ++ stressorKeyOf s0 from rfl,
          String.data_append, String.data_append] at hA2
        obtain ⟨hseq, _⟩ := sconn_key_inj x.source.data s0.id.data kx.data
          (stressorKeyOf s0).data hkdig hk0dig hA2
        have hxsrc : x.source = s0.id := string_data_inj _ _ hseq
        have hpx := h1 x hx
        rw [c5Pred] at hpx
        simp [hxsrc, htyx] at hpx
    · have htyx := hextraty x hxextra
      rw [connKey_shape, connKey_shape, htyx, hty0]
      exact append_ne_of_reverse_take_ne _ _ _ _ 1 (by decide) (by decide)
        (by decide)
  have hsurv : c5Conn nodes s0
      ∈ dedupBy connKey (preDedupConnsOf nodes (max 1 min_nodes) false) := by
    rw [hdec]
    exact dedupBy_mem_of_first connKey l₁ _ l₂ hkeys
  have hsub : ((dedupBy connKey (preDedupConnsOf nodes (max 1 min_nodes)
      false)).filter (c5Pred s0)).Sublist [c5Conn nodes s0] := by
    rw [← hprefilter]
    exact List.Sublist.filter _ (dedupBy_sublist connKey _)
  have hmemfilter : c5Conn nodes s0
      ∈ (dedupBy connKey (preDedupConnsOf nodes (max 1 min_nodes)
          false)).filter (c5Pred s0) :=
    List.mem_filter.mpr ⟨hsurv, by simp [c5Pred, c5Conn]⟩
  refine ⟨by rw [hconns]; exact sublist_singleton_of_mem _ _ hsub hmemfilter, ?_⟩
  have hsmem : s0 ∈ stressorNodesOf nodes :=
    List.mem_filter.mpr ⟨hs0, by simp [hty]⟩
  have hKu := (stressorKeyOf_of_digits s0 hkey).2
  have hnel : stressorNodesOf nodes ≠ [] := fun hc => by
    rw [hc] at hsmem
    cases hsmem
  have hs0f : s0 ∈ (stressorNodesOf nodes).filter
      fun m => stressorKeyOf m == stressorKeyOf s0 :=
    List.mem_filter.mpr ⟨hsmem, by simp⟩
  have hfne : ((stressorNodesOf nodes).filter
      fun m => stressorKeyOf m == stressorKeyOf s0) ≠ [] := by
    intro hc
    rw [hc] at hs0f
    cases hs0f
  have hfind : findGroup (sGroupsOf nodes false) (stressorKeyOf s0)
      = some ((stressorNodesOf nodes).filter
          fun m => stressorKeyOf m == stressorKeyOf s0) := by
    rw [sGroupsOf_false_eq nodes hnel,
      stressorGroupsOf_findGroup _ _ hKu, if_neg hfne]
  have hmemg := mem_of_findGroup _ _ _ hfind
  have hlen : 0 < ((stressorNodesOf nodes).filter
      fun m => stressorKeyOf m == stressorKeyOf s0).length := by
    cases hcase : (stressorNodesOf nodes).filter
        fun m => stressorKeyOf m == stressorKeyOf s0 with
    | nil => exact absurd hcase hfne
    | cons a t => simp [hcase]
  refine ⟨mkStressorHn (stressorKeyOf s0)
    ((stressorNodesOf nodes).filter
      fun m => stressorKeyOf m == stressorKeyOf s0), ?_, rfl, rfl⟩
  show _ ∈ typeHnsOf nodes (max 1 min_nodes) ++ sHnsOf nodes false
  refine List.mem_append_right _ ?_
  unfold sHnsOf
  refine List.mem_flatMap.mpr ⟨_, hmemg, ?_⟩
  rw [if_pos hlen]
  exact List.mem_singleton.mpr rfl

/-- C5 witness: one Stressor node referencing `Aop:315` has distinct ids and,
applying the theorem, its returned stressor-to-hypernode connections are exactly
the canonical `stressor-connection` to `stressor-hypernode-aop-315`. -/
theorem c5_witness :
    (([{ id := "s1", type := some "Stressor", aop := some "Aop:315" }]
        : List PyNode).map (·.id)).Nodup
    ∧ ((createHypergraphElements
          [{ id := "s1", type := some "Stressor", aop := some "Aop:315" }] [] 4
          false).hypernode_connections.filter
        (c5Pred { id := "s1", type := some "Stressor", aop := some "Aop:315" }))
      = [c5Conn [{ id := "s1", type := some "Stressor", aop := some "Aop:315" }]
          { id := "s1", type := some "Stressor", aop := some "Aop:315" }] :=
  ⟨by decide,
   (c5_stressor_connection
      [{ id := "s1", type := some "Stressor", aop := some "Aop:315" }] [] 4
      (by decide)
      { id := "s1", type := some "Stressor", aop := some "Aop:315" }
      (by decide) (by decide) (by decide)).1⟩

/-- C5 counterexample: a Stressor node with no digit-bearing AOP reference is
grouped under no AOP key, so the build returns zero stressor-to-hypernode
connections for it — not exactly one as claimed for every Stressor node. -/
theorem c5_counterexample :
    ((createHypergraphElements [{ id := "s1", type := some "Stressor" }] [] 4
        false).hypernode_connections.filter
      (c5Pred { id := "s1", type := some "Stressor" })) = []
    ∧ ({ id := "s1", type := some "Stressor" } : PyNode).type
        = some "Stressor" := by decide

end AopViz
